import Mathlib

/-!
# Verification of the uPIMulator chiplet-model generator

Shallow embedding of `tools/generate_chiplet_model.py` (the chunked
workload-to-DAG compiler under `golang/uPIMulator/tools/`, which is the builder
the specification describes) together with proofs of the specification's
claims about it.

Modelling conventions:
* Python `int` is modelled as `Int`; Python `//` and `%` are modelled as
  `Int.ediv` / `Int.emod` (identical to Python floor-division/modulo for the
  positive divisors that occur in this program; Python raises
  `ZeroDivisionError` on a zero divisor, which is unreachable here because
  every divisor is clamped to at least 1 before use — the one exception,
  indexing `expert_chips` modulo its length, is guarded in the theorems by the
  resolver-provided invariant `1 ≤ num_experts`).
* Python floats (`digital_latency_scale`) are modelled as exact rationals,
  and `int(x)` as truncation toward zero.
* A JSON stage object is modelled as a `Stage` structure whose optional
  fields are `none` exactly when the source does not put the key in the dict.
  A missing `"deps"` key is modelled as the empty list.
-/

namespace ChipletModel

/-- JSON-like configuration values, as read from a HuggingFace `config.json`.
Only string arrays occur in the fields this program reads (`architectures`). -/
inductive JValue where
  | jint (n : Int)
  | jbool (b : Bool)
  | jstr (s : String)
  | jlist (xs : List String)
  | jnull
deriving DecidableEq, Repr

/-- A configuration document: an association list of JSON fields. -/
abbrev Config := List (String × JValue)

/-- `int_from_config` from the source: scan `keys` in order and return the
first value that Python's `isinstance(value, (int, float))` accepts (`bool` is
a subclass of `int`, so booleans convert to 0/1); keys holding non-numeric
values are skipped.  The source's `default` argument is applied by the callers
via `Option.getD`. -/
def int_from_config (data : Config) : List String → Option Int
  | [] => none
  | key :: rest =>
    match data.lookup key with
    | some (JValue.jint n) => some n
    | some (JValue.jbool b) => some (if b then 1 else 0)
    | some _ => int_from_config data rest
    | none => int_from_config data rest

/-- `bool_from_config` from the source: the first key present with a boolean
value returns it, a string value is compared (lower-cased) against the truthy
set, any other present value falls through to the next key. -/
def bool_from_config (data : Config) (keys : List String) (dflt : Bool) : Bool :=
  match keys with
  | [] => dflt
  | key :: rest =>
    match data.lookup key with
    | some (JValue.jbool b) => b
    | some (JValue.jstr s) => ["1", "true", "yes", "y", "on"].contains s.toLower
    | some _ => bool_from_config data rest dflt
    | none => bool_from_config data rest dflt

/-- Python `a or b` where `a` is an optional integer: `None` and `0` are falsy. -/
def py_or (a : Option Int) (b : Int) : Int :=
  match a with
  | some v => if v = 0 then b else v
  | none => b

/-- Python `x₁ or x₂ or ... or last` over optional integers
(used for the expert-count resolution chain). -/
def py_or_chain (xs : List (Option Int)) (last : Int) : Int :=
  match xs with
  | [] => last
  | a :: rest =>
    match a with
    | some v => if v = 0 then py_or_chain rest last else v
    | none => py_or_chain rest last

/-- Key aliases for the hidden size. -/
def hidden_keys : List String := ["hidden_size", "n_embd", "dim"]

/-- Key aliases for the intermediate size. -/
def intermediate_keys : List String :=
  ["moe_intermediate_size", "intermediate_size", "ffn_hidden_size"]

/-- Key aliases for the layer count. -/
def layer_keys : List String := ["num_hidden_layers", "n_layer", "num_layers"]

/-- Key aliases for experts-per-token. -/
def topk_keys : List String := ["moe_topk", "moe_top_k"]

/-- Resolved hidden size: `args.hidden_size or int_from_config(..., default=4096)`. -/
def resolved_hidden (config : Config) (ov : Option Int) : Int :=
  py_or ov ((int_from_config config hidden_keys).getD 4096)

/-- Resolved intermediate size (default is four times the resolved hidden size). -/
def resolved_intermediate (config : Config) (ov : Option Int) (hidden : Int) : Int :=
  py_or ov ((int_from_config config intermediate_keys).getD (hidden * 4))

/-- Resolved layer count (default 32). -/
def resolved_layers (config : Config) (ov : Option Int) : Int :=
  py_or ov ((int_from_config config layer_keys).getD 32)

/-- Resolved expert count:
`args.num_experts or config_local_experts or config_moe_experts or 16`. -/
def resolved_experts (config : Config) (ov : Option Int) : Int :=
  py_or_chain
    [ov, int_from_config config ["num_local_experts"],
      int_from_config config ["moe_num_experts", "num_experts"]] 16

/-- Resolved experts-per-token (default 2). -/
def resolved_topk (config : Config) (ov : Option Int) : Int :=
  py_or ov ((int_from_config config topk_keys).getD 2)

/-- Python `int(math.ceil(a / b))` for a positive divisor `b`, in exact
integer arithmetic. -/
def ceil_div (a b : Int) : Int := (a + b - 1).ediv b

/-- Python `int(q)`: truncation toward zero (floats modelled as exact rationals). -/
def py_int (q : ℚ) : Int := if 0 ≤ q then ⌊q⌋ else ⌈q⌉

/-- The `while remaining > 0` loop of `build_chunk_plan`.  The recursion is
made structural with a fuel argument; `build_chunk_plan` supplies
`fuel = remaining`, which always suffices because each iteration removes at
least one token (`tokens_per_chunk` is already clamped to at least 1 by the
caller; the clamp is repeated here only so that the definition is total). -/
def chunk_plan_go (tokens_per_chunk : Nat) : Nat → Nat → List Int
  | 0, _ => []
  | _, 0 => []
  | fuel + 1, remaining =>
    let take := min (max tokens_per_chunk 1) remaining
    (take : Int) :: chunk_plan_go tokens_per_chunk fuel (remaining - take)

/-- `build_chunk_plan` from the source: partition `tokens` into chunks of at
most `chunk_bytes // per_token_bytes` (at least 1) tokens each. -/
def build_chunk_plan (tokens hidden_size dtype_bytes chunk_bytes : Int) : List Int :=
  if tokens ≤ 0 then []
  else
    let per_token_bytes0 := max (hidden_size * dtype_bytes) dtype_bytes
    let per_token_bytes := if per_token_bytes0 ≤ 0 then dtype_bytes else per_token_bytes0
    let tokens_per_chunk := max (chunk_bytes.ediv per_token_bytes) 1
    let plan := chunk_plan_go tokens_per_chunk.toNat tokens.toNat tokens.toNat
    if plan.isEmpty then [tokens] else plan

/-- The `"aux"` free-form map as used by the builder (provenance keys only). -/
structure Aux where
  chunk_index : Option Int := none
  chunk_total : Option Int := none
  projection : Option String := none
  experts_per_tok : Option Int := none
deriving DecidableEq, Repr

/-- The `"metadata"` free-form map as used by the chunked stages. -/
structure Meta where
  layer_index : Option Int := none
  stage : Option String := none
  chunk_index : Option Int := none
  chunk_tokens : Option Int := none
  chunk_total : Option Int := none
deriving DecidableEq, Repr

/-- One expert sub-record of a `moe_linear` stage. -/
structure Expert where
  name : String
  chiplet : Int
  activation_bytes : Int
  weight_bytes : Int
  execute_latency : Int
  chunk_index : Option Int := none
deriving DecidableEq, Repr

/-- A stage object of the emitted sequence.  A field is `none` exactly when
the source does not put the corresponding key into the stage dict; a missing
`"deps"` key is modelled as `[]`. -/
structure Stage where
  type : String
  name : String
  deps : List Nat := []
  direction : Option String := none
  bytes : Option Int := none
  latency : Option Int := none
  chiplet : Option Int := none
  queue : Option Int := none
  rows : Option Int := none
  cols : Option Int := none
  k : Option Int := none
  tokens : Option Int := none
  features : Option Int := none
  activation_bytes : Option Int := none
  weight_bytes : Option Int := none
  pulse_count : Option Int := none
  adc_samples : Option Int := none
  pre_cycles : Option Int := none
  post_cycles : Option Int := none
  parallel : Option Bool := none
  randomize_experts : Option Bool := none
  nonlinear_kind : Option String := none
  host_load_kind : Option String := none
  host_store_kind : Option String := none
  aux : Option Aux := none
  metadata : Option Meta := none
  experts : Option (List Expert) := none
deriving DecidableEq, Repr

/-- Replace the dependency list of a stage (what `append_stage` does when it
assigns `stage["deps"]`). -/
def with_deps (st : Stage) (ds : List Nat) : Stage := { st with deps := ds }

/-- `append_stage` from the source: set `deps` (defaulting to the previous
stage when no explicit dependency list is given and the list is non-empty),
append, and return the new stage's index. -/
def append_stage (sequence : List Stage) (stage : Stage) (depends : Option (List Nat)) :
    List Stage × Nat :=
  let staged :=
    match depends with
    | none => if sequence.isEmpty then stage else with_deps stage [sequence.length - 1]
    | some ds => with_deps stage ds
  (sequence ++ [staged], sequence.length)

/-- A Python value accepted by `_normalize_deps`: `None`, a bare index, or a
list of indices. -/
inductive PyDep where
  | pnone
  | pint (i : Nat)
  | plist (l : List Nat)
deriving DecidableEq, Repr

/-- `_normalize_deps` from the source. -/
def normalize_deps : PyDep → List Nat
  | .pnone => []
  | .pint i => [i]
  | .plist l => l

/-- The `deps` list an `append_chunked_stage` iteration computes: the
normalised per-chunk dependency for this index, the base dependency on the
first chunk when nothing else applies, and the previous chunk under
`enforce_sequential`. -/
def chunk_deps (base_list : List Nat) (per_chunk_dep : Option (List PyDep))
    (enforce_sequential : Bool) (prev_idx : Option Nat) (idx : Nat) : List Nat :=
  let deps0 : List Nat :=
    match per_chunk_dep with
    | some pcd =>
      match pcd[idx]? with
      | some d => normalize_deps d
      | none => []
    | none => []
  let deps1 := if idx = 0 ∧ deps0.isEmpty ∧ ¬ base_list.isEmpty
    then deps0 ++ base_list else deps0
  match enforce_sequential, prev_idx with
  | true, some p => deps1 ++ [p]
  | _, _ => deps1

/-- The `dep_arg = deps if deps else None` passed to `append_stage` by each
`append_chunked_stage` iteration. -/
def chunk_dep_arg (base_list : List Nat) (per_chunk_dep : Option (List PyDep))
    (enforce_sequential : Bool) (prev_idx : Option Nat) (idx : Nat) :
    Option (List Nat) :=
  let deps2 := chunk_deps base_list per_chunk_dep enforce_sequential prev_idx idx
  if deps2.isEmpty then Option.none else some deps2

/-- The loop body of `append_chunked_stage`, threading the growing sequence,
the previous chunk's index and the running chunk counter, and returning the
list of appended indices (`chunk_ids`). -/
def append_chunked_go (stage_builder : Nat → Int → Stage) (base_list : List Nat)
    (per_chunk_dep : Option (List PyDep)) (enforce_sequential : Bool)
    (sequence : List Stage) (prev_idx : Option Nat) (idx : Nat) :
    List Int → List Stage × List Nat
  | [] => (sequence, [])
  | token_count :: rest =>
    let p := append_stage sequence (stage_builder idx token_count)
      (chunk_dep_arg base_list per_chunk_dep enforce_sequential prev_idx idx)
    let r := append_chunked_go stage_builder base_list per_chunk_dep enforce_sequential
      p.1 (some p.2) (idx + 1) rest
    (r.1, p.2 :: r.2)

/-- `append_chunked_stage` from the source. -/
def append_chunked_stage (sequence : List Stage) (stage_builder : Nat → Int → Stage)
    (chunk_plan : List Int) (base_dep : PyDep) (per_chunk_dep : Option (List PyDep))
    (enforce_sequential : Bool) : List Stage × List Nat :=
  if chunk_plan.isEmpty then (sequence, [])
  else append_chunked_go stage_builder (normalize_deps base_dep) per_chunk_dep
    enforce_sequential sequence Option.none 0 chunk_plan

/-- The `chunk_digital_owner` closure of `build_moe_sequence`.  The closure
reads the (re-bound, already clamped) `digital_chiplets` variable; every call
happens after the clamp `digital_chiplets = max(digital_chiplets, 1)`. -/
def chunk_digital_owner (digital_chiplets : Int) (layer_idx chunk_idx : Int) : Int :=
  if digital_chiplets ≤ 0 then 0
  else (layer_idx + chunk_idx).emod digital_chiplets

/-- The `"_L{layer}_C{chunk}"` suffix of the f-string stage names. -/
def lc_suffix (layer_idx chunk_idx : Nat) : String :=
  "_L" ++ toString layer_idx ++ "_C" ++ toString chunk_idx

/-- The `"embed"` `token_prep` root stage. -/
def embed_stage (tokens hidden_size digital_latency_base : Int) : Stage :=
  { type := "token_prep"
    name := "embed"
    tokens := some tokens
    features := some hidden_size
    latency := some (max (digital_latency_base.ediv 8) 2)
    host_load_kind := some "kv_cache" }

/-- The per-chunk `transfer` stage to RRAM of a Q/K/V/O projection
(`add_projection`). -/
def proj_transfer_down (proj_label : String) (layer_idx chunk_idx num_chunks : Nat)
    (chunk_size rram_id chunk_digital : Int) : Stage :=
  { type := "transfer"
    name := proj_label ++ "_transfer_to_rram" ++ lc_suffix layer_idx chunk_idx
    direction := some "digital_to_rram"
    bytes := some chunk_size
    latency := some (max (ceil_div chunk_size 4096) 4)
    aux := some { chunk_index := some (chunk_idx : Int)
                  chunk_total := some (num_chunks : Int)
                  projection := some proj_label }
    chiplet := some rram_id
    queue := some chunk_digital }

/-- The per-chunk `rram_linear` stage of a projection. -/
def proj_rram_linear (proj_label : String) (layer_idx chunk_idx num_chunks : Nat)
    (approx_tok chunk_size hidden_size weight_bytes rram_id : Int) : Stage :=
  { type := "rram_linear"
    name := proj_label ++ "_proj_rram" ++ lc_suffix layer_idx chunk_idx
    rows := some approx_tok
    cols := some hidden_size
    k := some hidden_size
    activation_bytes := some chunk_size
    weight_bytes := some (if chunk_idx = 0 then weight_bytes else 0)
    pulse_count := some (max (hidden_size.ediv 64) 16)
    adc_samples := some hidden_size
    pre_cycles := some 12
    post_cycles := some 10
    aux := some { chunk_index := some (chunk_idx : Int)
                  chunk_total := some (num_chunks : Int)
                  projection := some proj_label }
    chiplet := some rram_id }

/-- The per-chunk `transfer` stage back to digital of a projection. -/
def proj_transfer_up (proj_label : String) (layer_idx chunk_idx num_chunks : Nat)
    (chunk_size chunk_digital rram_id : Int) : Stage :=
  { type := "transfer"
    name := proj_label ++ "_transfer_to_digital" ++ lc_suffix layer_idx chunk_idx
    direction := some "rram_to_digital"
    bytes := some chunk_size
    latency := some (max (ceil_div chunk_size 4096) 4)
    aux := some { chunk_index := some (chunk_idx : Int)
                  chunk_total := some (num_chunks : Int)
                  projection := some proj_label }
    chiplet := some chunk_digital
    queue := some rram_id }

/-- `chunk_byte_plan[chunk_idx] if chunk_idx < len(chunk_byte_plan) else
chunk_byte_plan[-1]` (the fallback raises `IndexError` on an empty plan in the
source, which is unreachable; modelled with default 0). -/
def chunk_byte_at (chunk_byte_plan : List Int) (chunk_idx : Nat) : Int :=
  chunk_byte_plan[chunk_idx]?.getD (chunk_byte_plan.getLastD 0)

/-- The chunk loop of `add_projection`, threading the last appended index.
(The source's `add_projection` also receives a `digital_id` argument that its
body never reads; the unused parameter is omitted here.) -/
def add_projection_go (proj_label : String) (layer_idx : Nat) (digital_chiplets : Int)
    (hidden_size weight_bytes : Int) (chunk_byte_plan : List Int) (num_chunks : Nat)
    (rram_id : Int) (sequence : List Stage) (last_idx chunk_idx : Nat) :
    List Int → List Stage × Nat
  | [] => (sequence, last_idx)
  | chunk_tokens :: rest =>
    let chunk_size := chunk_byte_at chunk_byte_plan chunk_idx
    let chunk_digital := chunk_digital_owner digital_chiplets (layer_idx : Int) (chunk_idx : Int)
    let p1 := append_stage sequence
      (proj_transfer_down proj_label layer_idx chunk_idx num_chunks chunk_size rram_id
        chunk_digital) (some [last_idx])
    let p2 := append_stage p1.1
      (proj_rram_linear proj_label layer_idx chunk_idx num_chunks chunk_tokens chunk_size
        hidden_size weight_bytes rram_id) (some [p1.2])
    let p3 := append_stage p2.1
      (proj_transfer_up proj_label layer_idx chunk_idx num_chunks chunk_size chunk_digital
        rram_id) (some [p2.2])
    add_projection_go proj_label layer_idx digital_chiplets hidden_size weight_bytes
      chunk_byte_plan num_chunks rram_id p3.1 p3.2 (chunk_idx + 1) rest

/-- The per-chunk `attention` score stage. -/
def attn_score_stage (layer_idx : Nat) (hidden_size dtype_bytes digital_latency_base
    digital_chiplets : Int) (chunk_total : Nat) (chunk_idx : Nat) (chunk_tokens : Int) :
    Stage :=
  { type := "attention"
    name := "attn_score" ++ lc_suffix layer_idx chunk_idx
    rows := some chunk_tokens
    cols := some hidden_size
    k := some hidden_size
    latency := some digital_latency_base
    chiplet := some (chunk_digital_owner digital_chiplets (layer_idx : Int) (chunk_idx : Int))
    queue := some (chunk_digital_owner digital_chiplets (layer_idx : Int) (chunk_idx : Int))
    weight_bytes := some (chunk_tokens * hidden_size * dtype_bytes)
    metadata := some { layer_index := some (layer_idx : Int)
                       stage := some "attention_score"
                       chunk_index := some (chunk_idx : Int)
                       chunk_tokens := some chunk_tokens
                       chunk_total := some (chunk_total : Int) } }

/-- The per-chunk `softmax` stage. -/
def softmax_stage (layer_idx : Nat) (hidden_size digital_latency_base
    digital_chiplets : Int) (chunk_total : Nat) (chunk_idx : Nat) (chunk_tokens : Int) :
    Stage :=
  { type := "softmax"
    name := "softmax" ++ lc_suffix layer_idx chunk_idx
    rows := some chunk_tokens
    cols := some hidden_size
    latency := some (max (digital_latency_base.ediv 4) 8)
    chiplet := some (chunk_digital_owner digital_chiplets (layer_idx : Int) (chunk_idx : Int))
    queue := some (chunk_digital_owner digital_chiplets (layer_idx : Int) (chunk_idx : Int))
    nonlinear_kind := some "softmax"
    metadata := some { layer_index := some (layer_idx : Int)
                       stage := some "attention_norm"
                       chunk_index := some (chunk_idx : Int)
                       chunk_tokens := some chunk_tokens
                       chunk_total := some (chunk_total : Int) } }

/-- The per-chunk `attention` mix stage. -/
def attn_mix_stage (layer_idx : Nat) (hidden_size dtype_bytes digital_latency_base
    digital_chiplets : Int) (chunk_total : Nat) (chunk_idx : Nat) (chunk_tokens : Int) :
    Stage :=
  { type := "attention"
    name := "attn_mix" ++ lc_suffix layer_idx chunk_idx
    rows := some chunk_tokens
    cols := some hidden_size
    k := some hidden_size
    latency := some digital_latency_base
    chiplet := some (chunk_digital_owner digital_chiplets (layer_idx : Int) (chunk_idx : Int))
    queue := some (chunk_digital_owner digital_chiplets (layer_idx : Int) (chunk_idx : Int))
    weight_bytes := some (chunk_tokens * hidden_size * dtype_bytes)
    metadata := some { layer_index := some (layer_idx : Int)
                       stage := some "attention_mix"
                       chunk_index := some (chunk_idx : Int)
                       chunk_tokens := some chunk_tokens
                       chunk_total := some (chunk_total : Int) } }

/-- The per-chunk `post_attention` residual/normalise stage. -/
def post_attention_stage (layer_idx : Nat) (hidden_size digital_latency_base
    digital_chiplets : Int) (chunk_total : Nat) (chunk_idx : Nat) (chunk_tokens : Int) :
    Stage :=
  { type := "postprocess"
    name := "post_attention" ++ lc_suffix layer_idx chunk_idx
    rows := some chunk_tokens
    cols := some hidden_size
    latency := some (max (digital_latency_base.ediv 5) 10)
    chiplet := some (chunk_digital_owner digital_chiplets (layer_idx : Int) (chunk_idx : Int))
    queue := some (chunk_digital_owner digital_chiplets (layer_idx : Int) (chunk_idx : Int))
    nonlinear_kind := some "residual"
    metadata := some { layer_index := some (layer_idx : Int)
                       stage := some "post_attention"
                       chunk_index := some (chunk_idx : Int)
                       chunk_tokens := some chunk_tokens
                       chunk_total := some (chunk_total : Int) } }

/-- The per-chunk `moe_gating` stage. -/
def gating_stage (layer_idx : Nat) (experts_per_tok num_experts digital_latency_base
    digital_chiplets : Int) (chunk_idx : Nat) (chunk_tokens : Int) : Stage :=
  { type := "moe_gating"
    name := "moe_gating" ++ lc_suffix layer_idx chunk_idx
    rows := some chunk_tokens
    cols := some experts_per_tok
    k := some num_experts
    latency := some (max (digital_latency_base.ediv 6) 6)
    aux := some { experts_per_tok := some experts_per_tok
                  chunk_index := some (chunk_idx : Int) }
    chiplet := some (chunk_digital_owner digital_chiplets (layer_idx : Int) (chunk_idx : Int))
    queue := some (chunk_digital_owner digital_chiplets (layer_idx : Int) (chunk_idx : Int))
    randomize_experts := some true }

/-- One entry of `experts_template` (Python `int(intermediate_size / 16)`
truncates toward zero; under the outer `max(..., 32)` clamp this agrees with
floor division for every integer input). -/
def expert_template (layer_idx expert_idx : Nat) (chip activation_bytes_total
    experts_per_tok expert_weight_bytes intermediate_size : Int) : Expert :=
  { name := "expert_" ++ toString layer_idx ++ "_" ++ toString expert_idx
    chiplet := chip
    activation_bytes := activation_bytes_total.ediv (max experts_per_tok 1)
    weight_bytes := expert_weight_bytes
    execute_latency := max (intermediate_size.ediv 16) 32 }

/-- The per-chunk copy `{**expert, ...}` of a template expert. -/
def chunk_expert (chunk_idx : Nat) (chunk_size experts_per_tok : Int) (e : Expert) :
    Expert :=
  { e with activation_bytes := chunk_size.ediv (max experts_per_tok 1)
           weight_bytes := if chunk_idx = 0 then e.weight_bytes else 0
           chunk_index := some (chunk_idx : Int) }

/-- The per-chunk MoE `transfer` stage to the round-robin RRAM target. -/
def moe_transfer_down (layer_idx chunk_idx num_chunks : Nat)
    (chunk_size experts_per_tok target_rram chunk_digital : Int) : Stage :=
  { type := "transfer"
    name := "moe_transfer_to_rram" ++ lc_suffix layer_idx chunk_idx
    direction := some "digital_to_rram"
    bytes := some chunk_size
    latency := some (max (ceil_div chunk_size 4096) 4)
    aux := some { chunk_index := some (chunk_idx : Int)
                  chunk_total := some (num_chunks : Int)
                  experts_per_tok := some experts_per_tok }
    chiplet := some target_rram
    queue := some chunk_digital }

/-- The per-chunk `moe_linear` stage carrying one sub-record per expert. -/
def moe_linear_stage (layer_idx chunk_idx : Nat) (intermediate_size hidden_size
    chunk_size expert_weight_bytes : Int) (experts : List Expert) : Stage :=
  { type := "moe_linear"
    name := "moe" ++ lc_suffix layer_idx chunk_idx
    parallel := some true
    pulse_count := some (max (intermediate_size.ediv 64) 16)
    adc_samples := some hidden_size
    pre_cycles := some 12
    post_cycles := some 10
    activation_bytes := some chunk_size
    weight_bytes := some (if chunk_idx = 0 then expert_weight_bytes else 0)
    experts := some experts }

/-- The per-chunk MoE `transfer` stage back to the owning digital chiplet. -/
def moe_transfer_up (layer_idx chunk_idx num_chunks : Nat)
    (chunk_size experts_per_tok chunk_digital queue_rram : Int) : Stage :=
  { type := "transfer"
    name := "moe_transfer_to_digital" ++ lc_suffix layer_idx chunk_idx
    direction := some "rram_to_digital"
    bytes := some chunk_size
    latency := some (max (ceil_div chunk_size 4096) 4)
    aux := some { chunk_index := some (chunk_idx : Int)
                  chunk_total := some (num_chunks : Int)
                  experts_per_tok := some experts_per_tok }
    chiplet := some chunk_digital
    queue := some queue_rram }

/-- The per-chunk `moe_merge` stage (the source gives it no resource fields). -/
def merge_stage (layer_idx : Nat) (hidden_size digital_latency_base : Int)
    (chunk_idx : Nat) (chunk_tokens : Int) : Stage :=
  { type := "moe_merge"
    name := "moe_merge" ++ lc_suffix layer_idx chunk_idx
    rows := some chunk_tokens
    cols := some hidden_size
    latency := some (max (digital_latency_base.ediv 5) 10) }

/-- The per-chunk final `postprocess` stage of a layer. -/
def postprocess_stage (layer_idx : Nat) (hidden_size digital_latency_base
    digital_chiplets : Int) (chunk_idx : Nat) (chunk_tokens : Int) : Stage :=
  { type := "postprocess"
    name := "postprocess" ++ lc_suffix layer_idx chunk_idx
    rows := some chunk_tokens
    cols := some hidden_size
    latency := some (max (digital_latency_base.ediv 3) 12)
    nonlinear_kind := some "residual"
    host_store_kind := some "kv_cache"
    chiplet := some (chunk_digital_owner digital_chiplets (layer_idx : Int) (chunk_idx : Int))
    queue := some (chunk_digital_owner digital_chiplets (layer_idx : Int) (chunk_idx : Int)) }

/-- The argument list of `build_moe_sequence`. -/
structure BuildArgs where
  layers : Int
  hidden_size : Int
  intermediate_size : Int
  num_experts : Int
  experts_per_tok : Int
  seq_length : Int
  batch : Int
  dtype_bytes : Int
  digital_chiplets : Int
  rram_chiplets : Int
  digital_latency_scale : ℚ
  chunk_bytes : Int
deriving DecidableEq, Repr

/-- The local constants `build_moe_sequence` computes before the layer loop
(with `dtype_bytes`, `chunk_bytes`, `digital_chiplets` and `rram_chiplets`
already clamped as in the source). -/
structure Ctx where
  hidden_size : Int
  intermediate_size : Int
  num_experts : Int
  experts_per_tok : Int
  dtype_bytes : Int
  digital_chiplets : Int
  rram_chiplets : Int
  tokens : Int
  activation_bytes_total : Int
  projection_weight_bytes : Int
  expert_weight_bytes : Int
  chunk_plan : List Int
  chunk_byte_plan : List Int
  num_chunks : Nat
  digital_latency_base : Int
  expert_chips : List Int
deriving Repr

/-- The prologue of `build_moe_sequence`, line for line:
clamps, derived byte counts, the chunk plan with its `[tokens]` fallback,
`chunk_byte_plan`, `digital_latency_base`, the chiplet-count clamps and
`expert_chips`. -/
def mk_ctx (args : BuildArgs) : Ctx :=
  let dtype_bytes := max args.dtype_bytes 1
  let chunk_bytes := max args.chunk_bytes dtype_bytes
  let tokens := args.seq_length * args.batch
  let activation_bytes_total := tokens * args.hidden_size * dtype_bytes
  let projection_weight_bytes := args.hidden_size * args.hidden_size * dtype_bytes
  let expert_weight_bytes := args.hidden_size * args.intermediate_size * dtype_bytes
  let chunk_plan0 := build_chunk_plan tokens args.hidden_size dtype_bytes chunk_bytes
  let chunk_plan := if chunk_plan0.isEmpty then [tokens] else chunk_plan0
  let chunk_byte_plan := chunk_plan.map
    (fun chunk_tokens => max (chunk_tokens * args.hidden_size * dtype_bytes) dtype_bytes)
  let digital_latency_base :=
    max (py_int ((args.hidden_size : ℚ) * args.digital_latency_scale)) 1
  let digital_chiplets := max args.digital_chiplets 1
  let rram_chiplets := max args.rram_chiplets 1
  let expert_chips := (List.range args.num_experts.toNat).map
    (fun (chip_idx : Nat) => (chip_idx : Int).emod rram_chiplets)
  { hidden_size := args.hidden_size
    intermediate_size := args.intermediate_size
    num_experts := args.num_experts
    experts_per_tok := args.experts_per_tok
    dtype_bytes := dtype_bytes
    digital_chiplets := digital_chiplets
    rram_chiplets := rram_chiplets
    tokens := tokens
    activation_bytes_total := activation_bytes_total
    projection_weight_bytes := projection_weight_bytes
    expert_weight_bytes := expert_weight_bytes
    chunk_plan := chunk_plan
    chunk_byte_plan := chunk_byte_plan
    num_chunks := chunk_plan.length
    digital_latency_base := digital_latency_base
    expert_chips := expert_chips }

/-- The per-layer `experts_template` comprehension
(`expert_chips[expert_idx]` is a safe index since both ranges are
`range(num_experts)`; modelled with default 0). -/
def experts_template_def (ctx : Ctx) (layer_idx : Nat) : List Expert :=
  (List.range ctx.num_experts.toNat).map (fun expert_idx =>
    expert_template layer_idx expert_idx (ctx.expert_chips.getD expert_idx 0)
      ctx.activation_bytes_total ctx.experts_per_tok ctx.expert_weight_bytes
      ctx.intermediate_size)

/-- `expert_chips[(chunk_idx * experts_per_tok) % len(expert_chips)]`: the
round-robin RRAM target of a MoE chunk.  In Python a zero-length
`expert_chips` raises `ZeroDivisionError`; the theorems assume the
resolver-guaranteed `1 ≤ num_experts`, under which the `getD` default is
never used. -/
def moe_target_rram (expert_chips : List Int) (chunk_idx : Nat)
    (experts_per_tok : Int) : Int :=
  expert_chips.getD
    (((chunk_idx : Int) * experts_per_tok).emod (expert_chips.length : Int)).toNat 0

/-- The `down_deps` of a MoE chunk: the chunk's gating stage (when the index
is in range) followed by the previous chunk's return transfer (`moe_prev`). -/
def moe_down_deps (gating_chunks : List Nat) (moe_prev : Option Nat)
    (chunk_idx : Nat) : List Nat :=
  (match gating_chunks[chunk_idx]? with
   | some g => [g]
   | none => []) ++
  (match moe_prev with
   | some p => [p]
   | none => [])

/-- `depends=down_deps if down_deps else None`. -/
def moe_down_dep_arg (gating_chunks : List Nat) (moe_prev : Option Nat)
    (chunk_idx : Nat) : Option (List Nat) :=
  let down_deps := moe_down_deps gating_chunks moe_prev chunk_idx
  if down_deps.isEmpty then Option.none else some down_deps

/-- The per-chunk MoE dispatch/compute/return loop of `build_moe_sequence`,
threading `moe_prev` and accumulating `transfer_up_chunks`.  The source
recomputes `expert_chips[(chunk_idx * experts_per_tok) % len(expert_chips)]`
for the return transfer's queue; the identical expression (`target_rram`) is
reused here. -/
def moe_go (ctx : Ctx) (layer_idx : Nat) (experts_template : List Expert)
    (gating_chunks : List Nat) (sequence : List Stage) (moe_prev : Option Nat)
    (chunk_idx : Nat) : List Int → List Stage × Option Nat × List Nat
  | [] => (sequence, moe_prev, [])
  | _chunk_tokens :: rest =>
    let chunk_size := chunk_byte_at ctx.chunk_byte_plan chunk_idx
    let target_rram := moe_target_rram ctx.expert_chips chunk_idx ctx.experts_per_tok
    let p1 := append_stage sequence
      (moe_transfer_down layer_idx chunk_idx ctx.num_chunks chunk_size
        ctx.experts_per_tok target_rram
        (chunk_digital_owner ctx.digital_chiplets (layer_idx : Int) (chunk_idx : Int)))
      (moe_down_dep_arg gating_chunks moe_prev chunk_idx)
    let experts := experts_template.map (chunk_expert chunk_idx chunk_size ctx.experts_per_tok)
    let p2 := append_stage p1.1
      (moe_linear_stage layer_idx chunk_idx ctx.intermediate_size ctx.hidden_size
        chunk_size ctx.expert_weight_bytes experts) (some [p1.2])
    let p3 := append_stage p2.1
      (moe_transfer_up layer_idx chunk_idx ctx.num_chunks chunk_size
        ctx.experts_per_tok
        (chunk_digital_owner ctx.digital_chiplets (layer_idx : Int) (chunk_idx : Int))
        target_rram) (some [p2.2])
    let r := moe_go ctx layer_idx experts_template gating_chunks p3.1 (some p3.2)
      (chunk_idx + 1) rest
    (r.1, r.2.1, p3.2 :: r.2.2)

/-- One iteration of the layer loop of `build_moe_sequence`, returning the
grown sequence and the new `prev_stage`. -/
def layer_body (ctx : Ctx) (embed_stage_idx : Nat) (sequence : List Stage)
    (prev_stage : Nat) (layer_idx : Nat) : List Stage × Nat :=
  let rram_base := ((layer_idx : Int) * 4).emod ctx.rram_chiplets
  let q_rram := (rram_base + 0).emod ctx.rram_chiplets
  let k_rram := (rram_base + 1).emod ctx.rram_chiplets
  let v_rram := (rram_base + 2).emod ctx.rram_chiplets
  let q := add_projection_go "q" layer_idx ctx.digital_chiplets ctx.hidden_size
    ctx.projection_weight_bytes ctx.chunk_byte_plan ctx.num_chunks q_rram sequence
    (if layer_idx = 0 then embed_stage_idx else prev_stage) 0 ctx.chunk_plan
  let k := add_projection_go "k" layer_idx ctx.digital_chiplets ctx.hidden_size
    ctx.projection_weight_bytes ctx.chunk_byte_plan ctx.num_chunks k_rram q.1 q.2 0
    ctx.chunk_plan
  let v := add_projection_go "v" layer_idx ctx.digital_chiplets ctx.hidden_size
    ctx.projection_weight_bytes ctx.chunk_byte_plan ctx.num_chunks v_rram k.1 k.2 0
    ctx.chunk_plan
  let attn_score := append_chunked_stage v.1
    (attn_score_stage layer_idx ctx.hidden_size ctx.dtype_bytes ctx.digital_latency_base
      ctx.digital_chiplets ctx.num_chunks)
    ctx.chunk_plan (PyDep.plist [q.2, k.2]) Option.none false
  let post_attn := append_chunked_stage attn_score.1
    (softmax_stage layer_idx ctx.hidden_size ctx.digital_latency_base
      ctx.digital_chiplets ctx.num_chunks)
    ctx.chunk_plan PyDep.pnone (some (attn_score.2.map PyDep.pint)) false
  let mix_deps := (List.range ctx.chunk_plan.length).map (fun idx =>
    PyDep.plist ((match post_attn.2[idx]? with
      | some p => [p]
      | none => []) ++ [v.2]))
  let attn_mix := append_chunked_stage post_attn.1
    (attn_mix_stage layer_idx ctx.hidden_size ctx.dtype_bytes ctx.digital_latency_base
      ctx.digital_chiplets ctx.num_chunks)
    ctx.chunk_plan PyDep.pnone (some mix_deps) false
  let attn_mix_tail :=
    match attn_mix.2.getLast? with
    | some t => t
    | none =>
      match post_attn.2.getLast? with
      | some t => t
      | none => attn_score.2.getLastD 0
  let o_rram := (rram_base + 3).emod ctx.rram_chiplets
  let o := add_projection_go "o" layer_idx ctx.digital_chiplets ctx.hidden_size
    ctx.projection_weight_bytes ctx.chunk_byte_plan ctx.num_chunks o_rram attn_mix.1
    attn_mix_tail 0 ctx.chunk_plan
  let post_attention := append_chunked_stage o.1
    (post_attention_stage layer_idx ctx.hidden_size ctx.digital_latency_base
      ctx.digital_chiplets ctx.num_chunks)
    ctx.chunk_plan (PyDep.pint o.2) Option.none false
  let gating := append_chunked_stage post_attention.1
    (gating_stage layer_idx ctx.experts_per_tok ctx.num_experts ctx.digital_latency_base
      ctx.digital_chiplets)
    ctx.chunk_plan PyDep.pnone (some (post_attention.2.map PyDep.pint)) true
  let experts_template := experts_template_def ctx layer_idx
  let moe := moe_go ctx layer_idx experts_template gating.2 gating.1 Option.none 0
    ctx.chunk_plan
  let merge := append_chunked_stage moe.1
    (merge_stage layer_idx ctx.hidden_size ctx.digital_latency_base)
    ctx.chunk_plan PyDep.pnone (some (moe.2.2.map PyDep.pint)) true
  let postproc := append_chunked_stage merge.1
    (postprocess_stage layer_idx ctx.hidden_size ctx.digital_latency_base
      ctx.digital_chiplets)
    ctx.chunk_plan PyDep.pnone (some (merge.2.map PyDep.pint)) true
  let new_prev :=
    match postproc.2.getLast? with
    | some t => t
    | none =>
      match merge.2.getLast? with
      | some t => t
      | none =>
        match moe.2.2.getLast? with
        | some t => t
        | none =>
          match moe.2.1 with
          | some p => p
          | none => o.2
  (postproc.1, new_prev)

/-- `for layer_idx in range(layers)`, threading `prev_stage`. -/
def layer_loop (ctx : Ctx) (embed_stage_idx : Nat) (sequence : List Stage)
    (prev_stage layer_idx : Nat) : Nat → List Stage
  | 0 => sequence
  | fuel + 1 =>
    let r := layer_body ctx embed_stage_idx sequence prev_stage layer_idx
    layer_loop ctx embed_stage_idx r.1 r.2 (layer_idx + 1) fuel

/-- `build_moe_sequence` from the source: the embed root stage followed by
`layers` iterations of the layer pipeline. -/
def build_moe_sequence (args : BuildArgs) : List Stage :=
  let ctx := mk_ctx args
  let e := append_stage []
    (embed_stage ctx.tokens ctx.hidden_size ctx.digital_latency_base) (some [])
  layer_loop ctx e.2 e.1 e.2 0 args.layers.toNat

/-- Python truthiness of a JSON value. -/
def jtruthy : JValue → Bool
  | .jint n => n != 0
  | .jbool b => b
  | .jstr s => s != ""
  | .jlist l => !l.isEmpty
  | .jnull => false

/-- The output document's `"name"`:
`args.name or config.get("model_type") or config.get("architectures", ["moe_model"])[0]`.
(The source raises `IndexError`/`TypeError` when `architectures` is present
but empty or not a list; those unreachable-for-valid-configs cases are
modelled by falling back to `"moe_model"` / the raw value.) -/
def doc_name (config : Config) (arg_name : Option String) : JValue :=
  let arch : JValue :=
    match config.lookup "architectures" with
    | some (.jlist (x :: _)) => .jstr x
    | some (.jlist []) => .jstr "moe_model"
    | some v => v
    | none => .jstr "moe_model"
  let mt : JValue :=
    match config.lookup "model_type" with
    | some v => if jtruthy v then v else arch
    | none => arch
  match arg_name with
  | some s => if s = "" then mt else .jstr s
  | none => mt

/-- The `metadata` block of the output document. -/
structure DocMetadata where
  hidden_size : Int
  intermediate_size : Int
  layers : Int
  num_experts : Int
  experts_per_tok : Int
  seq_length : Int
  batch : Int
  dtype_bytes : Int
  digital_chiplets : Int
  rram_chiplets : Int
  chunk_bytes : Int
deriving DecidableEq, Repr

/-- The output document (`name`, `sequence`, `metadata`). -/
structure Document where
  name : JValue
  sequence : List Stage
  metadata : DocMetadata
deriving DecidableEq, Repr

/-- The command-line arguments of the generator (overrides are `Option`;
scalar parameters carry the argparse defaults). -/
structure Args where
  name : Option String := none
  seq_length : Int := 2048
  batch : Int := 1
  dtype_bytes : Int := 2
  layers : Option Int := none
  hidden_size : Option Int := none
  intermediate_size : Option Int := none
  num_experts : Option Int := none
  experts_per_tok : Option Int := none
  digital_chiplets : Int := 2
  rram_chiplets : Int := 8
  digital_latency_scale : ℚ := 1
  chunk_bytes : Int := 32 * 1024 * 1024
deriving DecidableEq, Repr

/-- The error message raised when MoE is disabled and no positive expert
count is available. -/
def moe_error_msg : String :=
  "模型未启用 MoE，请指定 --num-experts > 0 以生成专家阶段。"

/-- `generate_chiplet_model` from the source (file loading done by the
caller): resolve the model shape from overrides/config/defaults, raise when
MoE is unavailable, otherwise build the sequence and assemble the document. -/
def generate_chiplet_model (config : Config) (args : Args) : Except String Document :=
  let hidden_size := resolved_hidden config args.hidden_size
  let intermediate_size := resolved_intermediate config args.intermediate_size hidden_size
  let num_layers := resolved_layers config args.layers
  let num_experts0 := resolved_experts config args.num_experts
  let experts_per_tok := resolved_topk config args.experts_per_tok
  let use_moe := bool_from_config config ["use_moe"] (decide (0 < num_experts0))
  if use_moe = false ∧ num_experts0 ≤ 0 then
    .error moe_error_msg
  else
    let num_experts := if num_experts0 ≤ 0 then 1 else num_experts0
    let sequence := build_moe_sequence
      { layers := num_layers
        hidden_size := hidden_size
        intermediate_size := intermediate_size
        num_experts := num_experts
        experts_per_tok := experts_per_tok
        seq_length := args.seq_length
        batch := args.batch
        dtype_bytes := args.dtype_bytes
        digital_chiplets := args.digital_chiplets
        rram_chiplets := args.rram_chiplets
        digital_latency_scale := args.digital_latency_scale
        chunk_bytes := args.chunk_bytes }
    .ok
      { name := doc_name config args.name
        sequence := sequence
        metadata :=
          { hidden_size := hidden_size
            intermediate_size := intermediate_size
            layers := num_layers
            num_experts := num_experts
            experts_per_tok := experts_per_tok
            seq_length := args.seq_length
            batch := args.batch
            dtype_bytes := args.dtype_bytes
            digital_chiplets := args.digital_chiplets
            rram_chiplets := args.rram_chiplets
            chunk_bytes := args.chunk_bytes } }

/-! ## Predicates the claims are stated with -/

/-- The topological-order invariant: every dependency index of the stage at
position `i` is strictly smaller than `i` (non-negativity is intrinsic:
dependency indices are list positions). -/
def topo_ok (s : List Stage) : Bool :=
  (List.range s.length).all fun i =>
    match s[i]? with
    | some st => st.deps.all fun d => decide (d < i)
    | none => true

/-- The `chunk_index` recorded in a stage's `aux` map, if any. -/
def aux_chunk (st : Stage) : Option Int :=
  st.aux.bind fun a => a.chunk_index

/-- The `experts_per_tok` recorded in a stage's `aux` map, if any. -/
def aux_ept (st : Stage) : Option Int :=
  st.aux.bind fun a => a.experts_per_tok

/-- Recognises the per-chunk MoE dispatch transfer (`moe_transfer_to_rram_*`):
the only `digital_to_rram` transfers whose `aux` carries `experts_per_tok`. -/
def is_moe_down (st : Stage) : Bool :=
  st.type == "transfer" && st.direction == some "digital_to_rram" && (aux_ept st).isSome

/-- The MoE chunk-serialisation property: every MoE dispatch transfer of chunk
`c ≥ 1` depends on the immediately preceding stage, which is the MoE return
transfer (`rram_to_digital`, `aux.experts_per_tok` present) of chunk `c - 1`. -/
def moe_pair_ok (s : List Stage) : Bool :=
  (List.range s.length).all fun i =>
    match s[i]? with
    | some st =>
      if is_moe_down st then
        match aux_chunk st with
        | some c =>
          if 1 ≤ c then
            decide (1 ≤ i) && decide ((i - 1) ∈ st.deps) &&
            (match s[i - 1]? with
             | some st2 =>
               st2.type == "transfer" && st2.direction == some "rram_to_digital" &&
               (aux_ept st2).isSome && aux_chunk st2 == some (c - 1)
             | none => false)
          else true
        | none => true
      else true
    | none => true

/-- Every `transfer` stage's latency is `max(ceil(bytes / 4096), 4)`. -/
def transfer_latency_ok (st : Stage) : Bool :=
  if st.type == "transfer" then
    match st.bytes, st.latency with
    | some b, some l => l == max (ceil_div b 4096) 4
    | _, _ => false
  else true

/-- `0 ≤ x < bound` for a present optional resource id (absent fields hold
vacuously). -/
def opt_in_range (v : Option Int) (bound : Int) : Bool :=
  match v with
  | some x => decide (0 ≤ x ∧ x < bound)
  | none => true

/-- Every `chiplet`/`queue` field is a valid id of its resource class:
RRAM-side fields (the target of a `digital_to_rram` transfer, the source
queue of a `rram_to_digital` transfer, the `rram_linear` compute chiplet and
every expert sub-record's chiplet) lie in `[0, rram_count)`, digital-side
fields in `[0, digital_count)`. -/
def chiplet_fields_ok (digital_count rram_count : Int) (st : Stage) : Bool :=
  (if st.type == "transfer" then
    if st.direction == some "digital_to_rram" then
      opt_in_range st.chiplet rram_count && opt_in_range st.queue digital_count
    else
      opt_in_range st.chiplet digital_count && opt_in_range st.queue rram_count
  else if st.type == "rram_linear" then
    opt_in_range st.chiplet rram_count && opt_in_range st.queue rram_count
  else
    opt_in_range st.chiplet digital_count && opt_in_range st.queue digital_count) &&
  (match st.experts with
   | some es => es.all fun e => decide (0 ≤ e.chiplet ∧ e.chiplet < rram_count)
   | none => true)

/-- The weight-residency property of a single stage: a `rram_linear` stage
carries non-zero `weight_bytes` exactly on chunk 0, a `moe_linear` stage and
each of its expert sub-records likewise. -/
def weight_residency_ok (st : Stage) : Bool :=
  if st.type == "rram_linear" then
    match aux_chunk st, st.weight_bytes with
    | some c, some w => (w != 0) == (c == 0)
    | _, _ => false
  else if st.type == "moe_linear" then
    match st.weight_bytes, st.experts with
    | some w, some es =>
      es.all fun e =>
        match e.chunk_index with
        | some c => ((w != 0) == (c == 0)) && ((e.weight_bytes != 0) == (c == 0))
        | none => false
    | _, _ => false
  else true

/-- The spec's `digitalOwner(layerIndex, chunkIndex, digitalCount)`
placement function, count clamped to a minimum of 1. -/
def digitalOwner (layer_idx chunk_idx digital_count : Int) : Int :=
  (layer_idx + chunk_idx).emod (max digital_count 1)

/-- The spec's `expertOwner(expertIndex, rramCount)` placement function,
count clamped to a minimum of 1. -/
def expertOwner (expert_idx rram_count : Int) : Int :=
  expert_idx.emod (max rram_count 1)

/-- Every stage that records both `layer_index` and `chunk_index` in its
metadata places its digital `chiplet`/`queue` at
`chunk_digital_owner(layer, chunk)`. -/
def meta_placement_ok (digital_chiplets : Int) (st : Stage) : Bool :=
  match st.metadata with
  | some m =>
    match m.layer_index, m.chunk_index with
    | some l, some c =>
      (match st.chiplet with
       | some ch => ch == chunk_digital_owner digital_chiplets l c
       | none => true) &&
      (match st.queue with
       | some qu => qu == chunk_digital_owner digital_chiplets l c
       | none => true)
    | _, _ => true
  | none => true

/-- The expert sub-records of every `moe_linear` stage are placed by position:
the `j`-th expert sits on RRAM chiplet `j mod rram_chiplets`. -/
def expert_position_ok (rram_chiplets : Int) (st : Stage) : Bool :=
  match st.experts with
  | some es =>
    (List.range es.length).all fun j =>
      match es[j]? with
      | some e => e.chiplet == (j : Int).emod rram_chiplets
      | none => true
  | none => true

/-- A per-stage property `P` holds of every stage shape the layer pipeline
appends (quantified over the construction indices the builder instantiates;
RRAM ids are quantified over the clamped range the builder draws them from). -/
structure PhaseHyps (ctx : Ctx) (P : Stage → Prop) : Prop where
  embed : ∀ ds, P (with_deps (embed_stage ctx.tokens ctx.hidden_size
    ctx.digital_latency_base) ds)
  pdown : ∀ (lab : String) (lidx c : Nat) (rid : Int) (ds : List Nat),
    0 ≤ rid → rid < ctx.rram_chiplets →
    P (with_deps (proj_transfer_down lab lidx c ctx.num_chunks
      (chunk_byte_at ctx.chunk_byte_plan c) rid
      (chunk_digital_owner ctx.digital_chiplets (lidx : Int) (c : Int))) ds)
  plin : ∀ (lab : String) (lidx c : Nat) (tok rid : Int) (ds : List Nat),
    0 ≤ rid → rid < ctx.rram_chiplets →
    P (with_deps (proj_rram_linear lab lidx c ctx.num_chunks tok
      (chunk_byte_at ctx.chunk_byte_plan c) ctx.hidden_size
      ctx.projection_weight_bytes rid) ds)
  pup : ∀ (lab : String) (lidx c : Nat) (rid : Int) (ds : List Nat),
    0 ≤ rid → rid < ctx.rram_chiplets →
    P (with_deps (proj_transfer_up lab lidx c ctx.num_chunks
      (chunk_byte_at ctx.chunk_byte_plan c)
      (chunk_digital_owner ctx.digital_chiplets (lidx : Int) (c : Int)) rid) ds)
  score : ∀ (lidx c : Nat) (tok : Int) (ds : List Nat),
    P (with_deps (attn_score_stage lidx ctx.hidden_size ctx.dtype_bytes
      ctx.digital_latency_base ctx.digital_chiplets ctx.num_chunks c tok) ds)
  softx : ∀ (lidx c : Nat) (tok : Int) (ds : List Nat),
    P (with_deps (softmax_stage lidx ctx.hidden_size ctx.digital_latency_base
      ctx.digital_chiplets ctx.num_chunks c tok) ds)
  mix : ∀ (lidx c : Nat) (tok : Int) (ds : List Nat),
    P (with_deps (attn_mix_stage lidx ctx.hidden_size ctx.dtype_bytes
      ctx.digital_latency_base ctx.digital_chiplets ctx.num_chunks c tok) ds)
  postattn : ∀ (lidx c : Nat) (tok : Int) (ds : List Nat),
    P (with_deps (post_attention_stage lidx ctx.hidden_size ctx.digital_latency_base
      ctx.digital_chiplets ctx.num_chunks c tok) ds)
  gate : ∀ (lidx c : Nat) (tok : Int) (ds : List Nat),
    P (with_deps (gating_stage lidx ctx.experts_per_tok ctx.num_experts
      ctx.digital_latency_base ctx.digital_chiplets c tok) ds)
  mdown : ∀ (lidx c : Nat) (ds : List Nat),
    P (with_deps (moe_transfer_down lidx c ctx.num_chunks
      (chunk_byte_at ctx.chunk_byte_plan c) ctx.experts_per_tok
      (moe_target_rram ctx.expert_chips c ctx.experts_per_tok)
      (chunk_digital_owner ctx.digital_chiplets (lidx : Int) (c : Int))) ds)
  mlin : ∀ (lidx c : Nat) (ds : List Nat),
    P (with_deps (moe_linear_stage lidx c ctx.intermediate_size ctx.hidden_size
      (chunk_byte_at ctx.chunk_byte_plan c) ctx.expert_weight_bytes
      ((experts_template_def ctx lidx).map (chunk_expert c
        (chunk_byte_at ctx.chunk_byte_plan c) ctx.experts_per_tok))) ds)
  mup : ∀ (lidx c : Nat) (ds : List Nat),
    P (with_deps (moe_transfer_up lidx c ctx.num_chunks
      (chunk_byte_at ctx.chunk_byte_plan c) ctx.experts_per_tok
      (chunk_digital_owner ctx.digital_chiplets (lidx : Int) (c : Int))
      (moe_target_rram ctx.expert_chips c ctx.experts_per_tok)) ds)
  merge : ∀ (lidx c : Nat) (tok : Int) (ds : List Nat),
    P (with_deps (merge_stage lidx ctx.hidden_size ctx.digital_latency_base c tok) ds)
  postp : ∀ (lidx c : Nat) (tok : Int) (ds : List Nat),
    P (with_deps (postprocess_stage lidx ctx.hidden_size ctx.digital_latency_base
      ctx.digital_chiplets c tok) ds)

/-- A small two-chunk build configuration used to instantiate theorems on a
concrete input (tokens = 3 against a 4-byte chunk budget gives the chunk plan
`[2, 1]`, so both the first-chunk and later-chunk code paths are exercised). -/
def wargs : BuildArgs :=
  { layers := 1
    hidden_size := 2
    intermediate_size := 2
    num_experts := 2
    experts_per_tok := 1
    seq_length := 3
    batch := 1
    dtype_bytes := 1
    digital_chiplets := 2
    rram_chiplets := 2
    digital_latency_scale := 1
    chunk_bytes := 4 }

/-- Small generator arguments (one layer, tiny shape) used to evaluate the
document-level pipeline on concrete configurations. -/
def small_args : Args :=
  { name := none
    seq_length := 2
    batch := 1
    dtype_bytes := 1
    layers := some 1
    hidden_size := some 2
    intermediate_size := some 2
    num_experts := none
    experts_per_tok := some 1
    digital_chiplets := 1
    rram_chiplets := 1
    digital_latency_scale := 1
    chunk_bytes := 4 }

/-! ## Invariants in propositional form -/

/-- Propositional form of `topo_ok`: every dependency of the stage at
position `i` points strictly below `i`. -/
abbrev WellOrdered (s : List Stage) : Prop :=
  ∀ (i : Nat) (st : Stage), s[i]? = some st → ∀ d ∈ st.deps, d < i

/-- Propositional form of `moe_pair_ok`. -/
abbrev MoePaired (s : List Stage) : Prop :=
  ∀ (i : Nat) (st : Stage) (c : Int), s[i]? = some st → is_moe_down st = true → aux_chunk st = some c → 1 ≤ c →
    1 ≤ i ∧ (i - 1) ∈ st.deps ∧
    ∃ st2, s[i - 1]? = some st2 ∧ st2.type = "transfer" ∧
      st2.direction = some "rram_to_digital" ∧ (aux_ept st2).isSome = true ∧
      aux_chunk st2 = some (c - 1)

/-- `r` extends `s` by a tail of stages that all satisfy `P`. -/
abbrev SeqExtends (P : Stage → Prop) (s r : List Stage) : Prop :=
  ∃ t, r = s ++ t ∧ ∀ x ∈ t, P x

/-! ## Basic lemmas about the builder primitives -/

theorem seqExtends_refl (P : Stage → Prop) (s : List Stage) : SeqExtends P s s :=
  ⟨[], by simp, by simp⟩

theorem seqExtends_trans {P : Stage → Prop} {s r u : List Stage}
    (h1 : SeqExtends P s r) (h2 : SeqExtends P r u) : SeqExtends P s u := by
  obtain ⟨t1, rfl, hp1⟩ := h1
  obtain ⟨t2, rfl, hp2⟩ := h2
  refine ⟨t1 ++ t2, by simp, ?_⟩
  intro x hx
  rcases List.mem_append.mp hx with h | h
  · exact hp1 x h
  · exact hp2 x h

theorem seqExtends_le {P : Stage → Prop} {s r : List Stage}
    (h : SeqExtends P s r) : s.length ≤ r.length := by
  obtain ⟨t, rfl, -⟩ := h
  simp

theorem seqExtends_getElem? {P : Stage → Prop} {s r : List Stage}
    (h : SeqExtends P s r) {i : Nat} (hi : i < s.length) : r[i]? = s[i]? := by
  obtain ⟨t, rfl, -⟩ := h
  exact List.getElem?_append_left hi

theorem with_deps_deps (st : Stage) (ds : List Nat) : (with_deps st ds).deps = ds := rfl

theorem with_deps_self (st : Stage) : with_deps st st.deps = st := rfl

theorem append_stage_snd (s : List Stage) (st : Stage) (d : Option (List Nat)) :
    (append_stage s st d).2 = s.length := rfl

theorem append_stage_some (s : List Stage) (st : Stage) (ds : List Nat) :
    append_stage s st (some ds) = (s ++ [with_deps st ds], s.length) := rfl

theorem append_stage_fst (s : List Stage) (st : Stage) (d : Option (List Nat)) :
    ∃ ds, (append_stage s st d).1 = s ++ [with_deps st ds] := by
  cases d with
  | none =>
    by_cases h : s.isEmpty
    · exact ⟨st.deps, by simp [append_stage, h, with_deps_self]⟩
    · exact ⟨[s.length - 1], by simp [append_stage, h]⟩
  | some ds => exact ⟨ds, rfl⟩

theorem append_stage_length (s : List Stage) (st : Stage) (d : Option (List Nat)) :
    (append_stage s st d).1.length = s.length + 1 := by
  obtain ⟨ds, h⟩ := append_stage_fst s st d
  simp [h]

theorem append_stage_extends {P : Stage → Prop} (s : List Stage) (st : Stage)
    (d : Option (List Nat)) (hP : ∀ ds, P (with_deps st ds)) :
    SeqExtends P s (append_stage s st d).1 := by
  obtain ⟨ds, h⟩ := append_stage_fst s st d
  refine ⟨[with_deps st ds], h, ?_⟩
  intro x hx
  rw [List.mem_singleton] at hx
  subst hx
  exact hP ds

theorem wellOrdered_nil : WellOrdered [] := by
  intro i st h
  simp at h

theorem wellOrdered_snoc {s : List Stage} {st : Stage} (hs : WellOrdered s)
    (hd : ∀ d ∈ st.deps, d < s.length) : WellOrdered (s ++ [st]) := by
  intro i st' hget d hdm
  rcases lt_trichotomy i s.length with h | h | h
  · rw [List.getElem?_append_left h] at hget
    exact hs i st' hget d hdm
  · subst h
    rw [List.getElem?_concat_length] at hget
    injection hget with he
    subst he
    exact hd d hdm
  · rw [List.getElem?_append_right (le_of_lt h)] at hget
    have hnone : ([st] : List Stage)[i - s.length]? = none := by
      rw [List.getElem?_eq_none_iff]
      simp
      omega
    rw [hnone] at hget
    cases hget

theorem wellOrdered_append_stage {s : List Stage} {st : Stage} {d : Option (List Nat)}
    (hs : WellOrdered s) (hdeps : st.deps = [])
    (hd : ∀ ds, d = some ds → ∀ x ∈ ds, x < s.length) :
    WellOrdered (append_stage s st d).1 := by
  cases d with
  | some ds =>
    rw [append_stage_some]
    exact wellOrdered_snoc hs (by intro x hx; exact hd ds rfl x hx)
  | none =>
    by_cases h : s.isEmpty
    · have h0 : s = [] := by simpa [List.isEmpty_iff] using h
      subst h0
      have he : (append_stage ([] : List Stage) st none).1 = [] ++ [st] := by
        simp [append_stage]
      rw [he]
      exact wellOrdered_snoc wellOrdered_nil (by simp [hdeps])
    · have he : (append_stage s st none).1 = s ++ [with_deps st [s.length - 1]] := by
        simp [append_stage, h]
      rw [he]
      apply wellOrdered_snoc hs
      intro x hx
      rw [with_deps_deps, List.mem_singleton] at hx
      subst hx
      have hpos : 0 < s.length := by
        rcases List.isEmpty_iff.not.mp h with -
        cases s with
        | nil => simp at h
        | cons a l => simp
      omega

theorem moePaired_nil : MoePaired [] := by
  intro i st c h
  simp at h

theorem moePaired_append {s t : List Stage} (hs : MoePaired s)
    (ht : ∀ x ∈ t, is_moe_down x = false) : MoePaired (s ++ t) := by
  intro i st c hget hdown hchunk hc
  by_cases h : i < s.length
  · rw [List.getElem?_append_left h] at hget
    obtain ⟨h1, h2, st2, hg2, hrest⟩ := hs i st c hget hdown hchunk hc
    refine ⟨h1, h2, st2, ?_, hrest⟩
    rw [List.getElem?_append_left (by omega)]
    exact hg2
  · push_neg at h
    rw [List.getElem?_append_right h] at hget
    have hmem := List.getElem?_mem hget
    have hf := ht st hmem
    rw [hf] at hdown
    exact absurd hdown Bool.false_ne_true

theorem moePaired_append_stage {s : List Stage} {st : Stage} {d : Option (List Nat)}
    (hs : MoePaired s) (hnd : ∀ ds, is_moe_down (with_deps st ds) = false) :
    MoePaired (append_stage s st d).1 := by
  obtain ⟨ds, h⟩ := append_stage_fst s st d
  rw [h]
  apply moePaired_append hs
  intro x hx
  rw [List.mem_singleton] at hx
  subst hx
  exact hnd ds

theorem moePaired_snoc_down {s : List Stage} {st : Stage} (hs : MoePaired s)
    (hnew : ∀ c, aux_chunk st = some c → 1 ≤ c →
      1 ≤ s.length ∧ (s.length - 1) ∈ st.deps ∧
      ∃ st2, s[s.length - 1]? = some st2 ∧ st2.type = "transfer" ∧
        st2.direction = some "rram_to_digital" ∧ (aux_ept st2).isSome = true ∧
        aux_chunk st2 = some (c - 1)) :
    MoePaired (s ++ [st]) := by
  intro i st' c hget hdown hchunk hc
  by_cases h : i < s.length
  · rw [List.getElem?_append_left h] at hget
    obtain ⟨h1, h2, st2, hg2, hrest⟩ := hs i st' c hget hdown hchunk hc
    refine ⟨h1, h2, st2, ?_, hrest⟩
    rw [List.getElem?_append_left (by omega)]
    exact hg2
  · push_neg at h
    have hlen : i < s.length + 1 := by
      have := (List.getElem?_eq_some_iff.mp hget).1
      simpa using this
    have hi : i = s.length := by omega
    subst hi
    rw [List.getElem?_concat_length] at hget
    injection hget with he
    subst he
    obtain ⟨h1, h2, st2, hg2, hrest⟩ := hnew c hchunk hc
    refine ⟨h1, h2, st2, ?_, hrest⟩
    rw [List.getElem?_append_left (by omega)]
    exact hg2

theorem topo_ok_of_wellOrdered {s : List Stage} (h : WellOrdered s) : topo_ok s = true := by
  unfold topo_ok
  rw [List.all_eq_true]
  intro i hi
  cases hget : s[i]? with
  | none => simp [hget]
  | some st =>
    simp only [hget]
    rw [List.all_eq_true]
    intro d hd
    exact decide_eq_true (h i st hget d hd)

theorem moe_pair_ok_of_moePaired {s : List Stage} (h : MoePaired s) :
    moe_pair_ok s = true := by
  unfold moe_pair_ok
  rw [List.all_eq_true]
  intro i hi
  cases hget : s[i]? with
  | none => simp [hget]
  | some st =>
    simp only [hget]
    by_cases hd : is_moe_down st = true
    · cases hc : aux_chunk st with
      | none => simp [hd, hc]
      | some c =>
        by_cases hc1 : 1 ≤ c
        · obtain ⟨h1, h2, st2, hg2, ht2, hd2, he2, hc2⟩ := h i st c hget hd hc hc1
          simp [hd, hc, hc1, h1, h2, hg2, ht2, hd2, he2, hc2]
        · simp [hd, hc, hc1]
    · simp [Bool.not_eq_true] at hd
      simp [hd]

theorem append_stage_step (P : Stage → Prop) (s : List Stage) (st : Stage)
    (d : Option (List Nat)) (q : List Stage × Nat) (hq : append_stage s st d = q)
    (hwf : WellOrdered s) (hmo : MoePaired s) (hdeps : st.deps = [])
    (hd : ∀ ds, d = some ds → ∀ x ∈ ds, x < s.length)
    (hP : ∀ ds, P (with_deps st ds))
    (hnd : ∀ ds, is_moe_down (with_deps st ds) = false) :
    SeqExtends P s q.1 ∧ WellOrdered q.1 ∧ MoePaired q.1 ∧
      q.1.length = s.length + 1 ∧ q.2 = s.length := by
  subst hq
  exact ⟨append_stage_extends s st d hP, wellOrdered_append_stage hwf hdeps hd,
    moePaired_append_stage hmo hnd, append_stage_length s st d, rfl⟩

theorem chunk_pcd_deps_bound {n : Nat} {pcd : Option (List PyDep)} {idx : Nat}
    (hpcd : ∀ l, pcd = some l → ∀ dp ∈ l, ∀ x ∈ normalize_deps dp, x < n) :
    ∀ x ∈ (match pcd with
      | some pcdl =>
        match pcdl[idx]? with
        | some d => normalize_deps d
        | none => []
      | none => ([] : List Nat)), x < n := by
  intro x hx
  cases pcd with
  | none => simp at hx
  | some l =>
    cases hg : l[idx]? with
    | none => simp [hg] at hx
    | some dp =>
      simp only [hg] at hx
      exact hpcd l rfl dp (List.getElem?_mem hg) x hx

theorem chunk_deps_bound {n : Nat} (B : List Nat) (pcd : Option (List PyDep))
    (enf : Bool) (prev : Option Nat) (idx : Nat)
    (hb : ∀ b ∈ B, b < n)
    (hpcd : ∀ l, pcd = some l → ∀ dp ∈ l, ∀ x ∈ normalize_deps dp, x < n)
    (hprev : ∀ p, prev = some p → p < n) :
    ∀ x ∈ chunk_deps B pcd enf prev idx, x < n := by
  intro x hx
  unfold chunk_deps at hx
  have h0 := @chunk_pcd_deps_bound n pcd idx hpcd
  have h1 : ∀ y ∈ (if idx = 0 ∧ (match pcd with
      | some pcdl =>
        match pcdl[idx]? with
        | some d => normalize_deps d
        | none => []
      | none => ([] : List Nat)).isEmpty ∧ ¬ B.isEmpty
      then (match pcd with
        | some pcdl =>
          match pcdl[idx]? with
          | some d => normalize_deps d
          | none => []
        | none => ([] : List Nat)) ++ B
      else (match pcd with
        | some pcdl =>
          match pcdl[idx]? with
          | some d => normalize_deps d
          | none => []
        | none => ([] : List Nat))), y < n := by
    intro y hy
    split at hy
    · rcases List.mem_append.mp hy with h | h
      · exact h0 y h
      · exact hb y h
    · exact h0 y hy
  cases enf with
  | false => exact h1 x hx
  | true =>
    cases prev with
    | none => exact h1 x hx
    | some p =>
      rcases List.mem_append.mp hx with h | h
      · exact h1 x h
      · rw [List.mem_singleton] at h
        rw [h]
        exact hprev p rfl

theorem chunk_dep_arg_bound {n : Nat} (B : List Nat) (pcd : Option (List PyDep))
    (enf : Bool) (prev : Option Nat) (idx : Nat)
    (hb : ∀ b ∈ B, b < n)
    (hpcd : ∀ l, pcd = some l → ∀ dp ∈ l, ∀ x ∈ normalize_deps dp, x < n)
    (hprev : ∀ p, prev = some p → p < n) :
    ∀ ds, chunk_dep_arg B pcd enf prev idx = some ds → ∀ x ∈ ds, x < n := by
  intro ds hds
  unfold chunk_dep_arg at hds
  by_cases he : (chunk_deps B pcd enf prev idx).isEmpty
  · simp [he] at hds
  · simp only [he, if_false] at hds
    injection hds with hds
    subst hds
    exact chunk_deps_bound B pcd enf prev idx hb hpcd hprev

theorem append_chunked_go_spec (P : Stage → Prop) (sb : Nat → Int → Stage)
    (B : List Nat) (pcd : Option (List PyDep)) (enf : Bool)
    (hP : ∀ (c : Nat) (tok : Int) (ds : List Nat), P (with_deps (sb c tok) ds))
    (hdeps : ∀ c tok, (sb c tok).deps = [])
    (hnd : ∀ c tok ds, is_moe_down (with_deps (sb c tok) ds) = false) :
    ∀ (plan : List Int) (s : List Stage) (prev : Option Nat) (idx : Nat)
      (r : List Stage × List Nat),
      append_chunked_go sb B pcd enf s prev idx plan = r →
      WellOrdered s → MoePaired s →
      (∀ b ∈ B, b < s.length) →
      (∀ l, pcd = some l → ∀ dp ∈ l, ∀ x ∈ normalize_deps dp, x < s.length) →
      (∀ p, prev = some p → p < s.length) →
      SeqExtends P s r.1 ∧ WellOrdered r.1 ∧ MoePaired r.1 ∧
        ∀ j ∈ r.2, j < r.1.length := by
  intro plan
  induction plan with
  | nil =>
    intro s prev idx r hr hwf hmo hb hpcd hprev
    simp only [append_chunked_go] at hr
    subst hr
    exact ⟨seqExtends_refl P s, hwf, hmo, by intro j hj; simp at hj⟩
  | cons tok rest ih =>
    intro s prev idx r hr hwf hmo hb hpcd hprev
    simp only [append_chunked_go] at hr
    set p1 := append_stage s (sb idx tok) (chunk_dep_arg B pcd enf prev idx) with hp1
    set r2 := append_chunked_go sb B pcd enf p1.1 (some p1.2) (idx + 1) rest with hr2
    obtain ⟨he1, hw1, hm1, hl1, hi1⟩ := append_stage_step P s (sb idx tok)
      (chunk_dep_arg B pcd enf prev idx) p1 hp1.symm hwf hmo (hdeps idx tok)
      (chunk_dep_arg_bound B pcd enf prev idx hb hpcd hprev)
      (hP idx tok) (hnd idx tok)
    obtain ⟨her, hwr, hmr, hjr⟩ := ih p1.1 (some p1.2) (idx + 1) r2 hr2.symm hw1 hm1
      (by intro b hbm; have := hb b hbm; omega)
      (by intro l hl dp hdp x hx; have := hpcd l hl dp hdp x hx; omega)
      (by intro p hp; injection hp with hpe; subst hpe; omega)
    subst hr
    refine ⟨seqExtends_trans he1 her, hwr, hmr, ?_⟩
    intro j hj
    dsimp only at hj ⊢
    rcases List.mem_cons.mp hj with hj | hj
    · subst hj
      have := seqExtends_le her
      omega
    · exact hjr j hj

theorem add_projection_go_spec (P : Stage → Prop) (lab : String) (lidx : Nat)
    (D hs wb : Int) (cbp : List Int) (nc : Nat) (rid : Int)
    (hPdown : ∀ (c : Nat) (ds : List Nat),
      P (with_deps (proj_transfer_down lab lidx c nc (chunk_byte_at cbp c) rid
        (chunk_digital_owner D (lidx : Int) (c : Int))) ds))
    (hPlin : ∀ (c : Nat) (tok : Int) (ds : List Nat),
      P (with_deps (proj_rram_linear lab lidx c nc tok (chunk_byte_at cbp c) hs wb rid) ds))
    (hPup : ∀ (c : Nat) (ds : List Nat),
      P (with_deps (proj_transfer_up lab lidx c nc (chunk_byte_at cbp c)
        (chunk_digital_owner D (lidx : Int) (c : Int)) rid) ds)) :
    ∀ (plan : List Int) (s : List Stage) (last cidx : Nat) (r : List Stage × Nat),
      add_projection_go lab lidx D hs wb cbp nc rid s last cidx plan = r →
      WellOrdered s → MoePaired s → last < s.length →
      SeqExtends P s r.1 ∧ WellOrdered r.1 ∧ MoePaired r.1 ∧ r.2 < r.1.length := by
  intro plan
  induction plan with
  | nil =>
    intro s last cidx r hr hwf hmo hlast
    simp only [add_projection_go] at hr
    subst hr
    exact ⟨seqExtends_refl P s, hwf, hmo, hlast⟩
  | cons tok rest ih =>
    intro s last cidx r hr hwf hmo hlast
    simp only [add_projection_go] at hr
    set p1 := append_stage s (proj_transfer_down lab lidx cidx nc (chunk_byte_at cbp cidx)
      rid (chunk_digital_owner D (lidx : Int) (cidx : Int))) (some [last]) with hp1
    set p2 := append_stage p1.1 (proj_rram_linear lab lidx cidx nc tok
      (chunk_byte_at cbp cidx) hs wb rid) (some [p1.2]) with hp2
    set p3 := append_stage p2.1 (proj_transfer_up lab lidx cidx nc (chunk_byte_at cbp cidx)
      (chunk_digital_owner D (lidx : Int) (cidx : Int)) rid) (some [p2.2]) with hp3
    obtain ⟨he1, hw1, hm1, hl1, hi1⟩ := append_stage_step P s _ _ p1 hp1.symm hwf hmo rfl
      (by intro ds hds
          injection hds with hds
          subst hds
          intro x hx
          rw [List.mem_singleton] at hx
          subst hx
          exact hlast)
      (hPdown cidx) (fun ds => rfl)
    obtain ⟨he2, hw2, hm2, hl2, hi2⟩ := append_stage_step P p1.1 _ _ p2 hp2.symm hw1 hm1 rfl
      (by intro ds hds
          injection hds with hds
          subst hds
          intro x hx
          rw [List.mem_singleton] at hx
          subst hx
          omega)
      (hPlin cidx tok) (fun ds => rfl)
    obtain ⟨he3, hw3, hm3, hl3, hi3⟩ := append_stage_step P p2.1 _ _ p3 hp3.symm hw2 hm2 rfl
      (by intro ds hds
          injection hds with hds
          subst hds
          intro x hx
          rw [List.mem_singleton] at hx
          subst hx
          omega)
      (hPup cidx) (fun ds => rfl)
    obtain ⟨her, hwr, hmr, hbr⟩ := ih p3.1 p3.2 (cidx + 1) r hr hw3 hm3 (by omega)
    exact ⟨seqExtends_trans (seqExtends_trans (seqExtends_trans he1 he2) he3) her,
      hwr, hmr, hbr⟩

theorem moe_down_deps_bound {n : Nat} (gcs : List Nat) (mp : Option Nat) (cidx : Nat)
    (hg : ∀ g ∈ gcs, g < n) (hmp : ∀ u, mp = some u → u < n) :
    ∀ x ∈ moe_down_deps gcs mp cidx, x < n := by
  intro x hx
  unfold moe_down_deps at hx
  rcases List.mem_append.mp hx with h | h
  · cases hge : gcs[cidx]? with
    | none => rw [hge] at h; simp at h
    | some g =>
      rw [hge] at h
      rw [List.mem_singleton] at h
      rw [h]
      have := List.getElem?_mem hge
      exact hg g this
  · cases mp with
    | none => simp at h
    | some u =>
      rw [List.mem_singleton] at h
      rw [h]
      exact hmp u rfl

theorem moe_down_dep_arg_bound {n : Nat} (gcs : List Nat) (mp : Option Nat) (cidx : Nat)
    (hg : ∀ g ∈ gcs, g < n) (hmp : ∀ u, mp = some u → u < n) :
    ∀ ds, moe_down_dep_arg gcs mp cidx = some ds → ∀ x ∈ ds, x < n := by
  intro ds hds
  unfold moe_down_dep_arg at hds
  by_cases he : (moe_down_deps gcs mp cidx).isEmpty
  · simp [he] at hds
  · simp only [he, if_false] at hds
    injection hds with hds
    subst hds
    exact moe_down_deps_bound gcs mp cidx hg hmp

theorem moe_down_append_paired (s : List Stage) (gcs : List Nat) (mp : Option Nat)
    (cidx : Nat) (st : Stage) (q : List Stage × Nat)
    (hq : append_stage s st (moe_down_dep_arg gcs mp cidx) = q)
    (ha : aux_chunk st = some (cidx : Int))
    (hmo : MoePaired s)
    (hmp : ∀ u, mp = some u → u + 1 = s.length ∧
      ∃ st2, s[u]? = some st2 ∧ st2.type = "transfer" ∧
        st2.direction = some "rram_to_digital" ∧ (aux_ept st2).isSome = true ∧
        aux_chunk st2 = some ((cidx : Int) - 1))
    (hseq : 1 ≤ cidx → mp ≠ none) :
    MoePaired q.1 := by
  subst hq
  by_cases hc : 1 ≤ cidx
  · obtain ⟨u, hu⟩ : ∃ u, mp = some u := by
      cases mp with
      | none => exact absurd rfl (hseq hc)
      | some u => exact ⟨u, rfl⟩
    obtain ⟨huv, st2, hg2, ht2, hd2, he2, hc2⟩ := hmp u hu
    have hnonempty : ¬ (moe_down_deps gcs mp cidx).isEmpty := by
      unfold moe_down_deps
      rw [hu]
      cases gcs[cidx]? <;> simp
    have hdeps : moe_down_dep_arg gcs mp cidx = some (moe_down_deps gcs mp cidx) := by
      unfold moe_down_dep_arg
      simp [hnonempty]
    rw [hdeps, append_stage_some]
    apply moePaired_snoc_down hmo
    intro c hc' hc1
    have hac : aux_chunk (with_deps st (moe_down_deps gcs mp cidx)) = aux_chunk st := rfl
    rw [hac, ha] at hc'
    injection hc' with hce
    refine ⟨by omega, ?_, st2, ?_, ht2, hd2, he2, ?_⟩
    · rw [with_deps_deps]
      unfold moe_down_deps
      rw [hu]
      apply List.mem_append.mpr
      right
      rw [List.mem_singleton]
      omega
    · have : s.length - 1 = u := by omega
      rw [this]
      exact hg2
    · rw [hc2, hce]
  · obtain ⟨ds, hds⟩ := append_stage_fst s st (moe_down_dep_arg gcs mp cidx)
    rw [hds]
    apply moePaired_snoc_down hmo
    intro c hc' hc1
    exfalso
    have hac : aux_chunk (with_deps st ds) = aux_chunk st := rfl
    rw [hac, ha] at hc'
    injection hc' with hce
    rw [← hce] at hc1
    have : cidx = 0 := by omega
    rw [this] at hc1
    simp at hc1

theorem moe_go_spec (P : Stage → Prop) (ctx : Ctx) (lidx : Nat)
    (tmpl : List Expert) (gcs : List Nat)
    (hPdown : ∀ (c : Nat) (ds : List Nat),
      P (with_deps (moe_transfer_down lidx c ctx.num_chunks
        (chunk_byte_at ctx.chunk_byte_plan c) ctx.experts_per_tok
        (moe_target_rram ctx.expert_chips c ctx.experts_per_tok)
        (chunk_digital_owner ctx.digital_chiplets (lidx : Int) (c : Int))) ds))
    (hPlin : ∀ (c : Nat) (ds : List Nat),
      P (with_deps (moe_linear_stage lidx c ctx.intermediate_size ctx.hidden_size
        (chunk_byte_at ctx.chunk_byte_plan c) ctx.expert_weight_bytes
        (tmpl.map (chunk_expert c (chunk_byte_at ctx.chunk_byte_plan c)
          ctx.experts_per_tok))) ds))
    (hPup : ∀ (c : Nat) (ds : List Nat),
      P (with_deps (moe_transfer_up lidx c ctx.num_chunks
        (chunk_byte_at ctx.chunk_byte_plan c) ctx.experts_per_tok
        (chunk_digital_owner ctx.digital_chiplets (lidx : Int) (c : Int))
        (moe_target_rram ctx.expert_chips c ctx.experts_per_tok)) ds)) :
    ∀ (plan : List Int) (s : List Stage) (mp : Option Nat) (cidx : Nat)
      (r : List Stage × Option Nat × List Nat),
      moe_go ctx lidx tmpl gcs s mp cidx plan = r →
      WellOrdered s → MoePaired s →
      (∀ g ∈ gcs, g < s.length) →
      (∀ u, mp = some u → u + 1 = s.length ∧
        ∃ st2, s[u]? = some st2 ∧ st2.type = "transfer" ∧
          st2.direction = some "rram_to_digital" ∧ (aux_ept st2).isSome = true ∧
          aux_chunk st2 = some ((cidx : Int) - 1)) →
      (1 ≤ cidx → mp ≠ none) →
      SeqExtends P s r.1 ∧ WellOrdered r.1 ∧ MoePaired r.1 ∧
        (∀ j ∈ r.2.2, j < r.1.length) ∧ (∀ u, r.2.1 = some u → u < r.1.length) := by
  intro plan
  induction plan with
  | nil =>
    intro s mp cidx r hr hwf hmo hg hmp hseq
    simp only [moe_go] at hr
    subst hr
    refine ⟨seqExtends_refl P s, hwf, hmo, by intro j hj; simp at hj, ?_⟩
    intro u hu
    dsimp only at hu ⊢
    have := (hmp u hu).1
    omega
  | cons tok rest ih =>
    intro s mp cidx r hr hwf hmo hg hmp hseq
    simp only [moe_go] at hr
    set p1 := append_stage s (moe_transfer_down lidx cidx ctx.num_chunks
      (chunk_byte_at ctx.chunk_byte_plan cidx) ctx.experts_per_tok
      (moe_target_rram ctx.expert_chips cidx ctx.experts_per_tok)
      (chunk_digital_owner ctx.digital_chiplets (lidx : Int) (cidx : Int)))
      (moe_down_dep_arg gcs mp cidx) with hp1
    set p2 := append_stage p1.1 (moe_linear_stage lidx cidx ctx.intermediate_size
      ctx.hidden_size (chunk_byte_at ctx.chunk_byte_plan cidx) ctx.expert_weight_bytes
      (tmpl.map (chunk_expert cidx (chunk_byte_at ctx.chunk_byte_plan cidx)
        ctx.experts_per_tok))) (some [p1.2]) with hp2
    set p3 := append_stage p2.1 (moe_transfer_up lidx cidx ctx.num_chunks
      (chunk_byte_at ctx.chunk_byte_plan cidx) ctx.experts_per_tok
      (chunk_digital_owner ctx.digital_chiplets (lidx : Int) (cidx : Int))
      (moe_target_rram ctx.expert_chips cidx ctx.experts_per_tok)) (some [p2.2]) with hp3
    have hmpb : ∀ u, mp = some u → u < s.length := by
      intro u hu
      have := (hmp u hu).1
      omega
    have hw1 : WellOrdered p1.1 := by
      rw [hp1]
      exact wellOrdered_append_stage hwf rfl (moe_down_dep_arg_bound gcs mp cidx hg hmpb)
    have he1 : SeqExtends P s p1.1 := by
      rw [hp1]
      exact append_stage_extends s _ _ (hPdown cidx)
    have hm1 : MoePaired p1.1 := by
      rw [hp1]
      exact moe_down_append_paired s gcs mp cidx _ _ rfl rfl hmo hmp hseq
    have hl1 : p1.1.length = s.length + 1 := by
      rw [hp1]
      exact append_stage_length _ _ _
    have hi1 : p1.2 = s.length := by
      rw [hp1]
      exact append_stage_snd _ _ _
    obtain ⟨he2, hw2, hm2, hl2, hi2⟩ := append_stage_step P p1.1 _ _ p2 hp2.symm hw1 hm1 rfl
      (by intro ds hds
          injection hds with hds
          subst hds
          intro x hx
          rw [List.mem_singleton] at hx
          subst hx
          omega)
      (hPlin cidx) (fun ds => rfl)
    obtain ⟨he3, hw3, hm3, hl3, hi3⟩ := append_stage_step P p2.1 _ _ p3 hp3.symm hw2 hm2 rfl
      (by intro ds hds
          injection hds with hds
          subst hds
          intro x hx
          rw [List.mem_singleton] at hx
          subst hx
          omega)
      (hPup cidx) (fun ds => rfl)
    have hup : p3.1[p2.1.length]? = some (with_deps (moe_transfer_up lidx cidx ctx.num_chunks
        (chunk_byte_at ctx.chunk_byte_plan cidx) ctx.experts_per_tok
        (chunk_digital_owner ctx.digital_chiplets (lidx : Int) (cidx : Int))
        (moe_target_rram ctx.expert_chips cidx ctx.experts_per_tok)) [p2.2]) := by
      rw [hp3, append_stage_some]
      exact List.getElem?_concat_length _ _
    set r2 := moe_go ctx lidx tmpl gcs p3.1 (some p3.2) (cidx + 1) rest with hr2
    have hcast : (((cidx + 1 : Nat)) : Int) - 1 = (cidx : Int) := by push_cast; ring
    obtain ⟨her, hwr, hmr, hjr, hur⟩ := ih p3.1 (some p3.2) (cidx + 1) r2 hr2.symm hw3 hm3
      (by intro g hgm
          have := hg g hgm
          omega)
      (by intro u hu
          injection hu with hue
          subst hue
          refine ⟨by omega, ?_⟩
          refine ⟨with_deps (moe_transfer_up lidx cidx ctx.num_chunks
            (chunk_byte_at ctx.chunk_byte_plan cidx) ctx.experts_per_tok
            (chunk_digital_owner ctx.digital_chiplets (lidx : Int) (cidx : Int))
            (moe_target_rram ctx.expert_chips cidx ctx.experts_per_tok)) [p2.2],
            ?_, rfl, rfl, rfl, ?_⟩
          · rw [hi3]
            exact hup
          · rw [hcast]
            rfl)
      (by intro h
          simp)
    subst hr
    refine ⟨seqExtends_trans (seqExtends_trans (seqExtends_trans he1 he2) he3) her,
      hwr, hmr, ?_, ?_⟩
    · intro j hj
      dsimp only at hj ⊢
      rcases List.mem_cons.mp hj with hj | hj
      · subst hj
        have := seqExtends_le her
        omega
      · exact hjr j hj
    · intro u hu
      dsimp only at hu ⊢
      exact hur u hu

theorem emod_range (a R : Int) (hR : 1 ≤ R) : 0 ≤ a.emod R ∧ a.emod R < R :=
  ⟨Int.emod_nonneg a (by omega), Int.emod_lt_of_pos a (by omega)⟩

theorem mem_of_getLast?_eq {l : List Nat} {a : Nat} (h : l.getLast? = some a) : a ∈ l := by
  rcases List.mem_getLast?_eq_getLast (Option.mem_def.mpr h) with ⟨hne, h2⟩
  rw [h2]
  exact List.getLast_mem hne

theorem append_chunked_stage_spec (P : Stage → Prop) (sb : Nat → Int → Stage)
    (plan : List Int) (base_dep : PyDep) (pcd : Option (List PyDep)) (enf : Bool)
    (hP : ∀ (c : Nat) (tok : Int) (ds : List Nat), P (with_deps (sb c tok) ds))
    (hdeps : ∀ c tok, (sb c tok).deps = [])
    (hnd : ∀ c tok ds, is_moe_down (with_deps (sb c tok) ds) = false)
    (s : List Stage) (r : List Stage × List Nat)
    (hr : append_chunked_stage s sb plan base_dep pcd enf = r)
    (hwf : WellOrdered s) (hmo : MoePaired s)
    (hbase : ∀ b ∈ normalize_deps base_dep, b < s.length)
    (hpcd : ∀ l, pcd = some l → ∀ dp ∈ l, ∀ x ∈ normalize_deps dp, x < s.length) :
    SeqExtends P s r.1 ∧ WellOrdered r.1 ∧ MoePaired r.1 ∧
      ∀ j ∈ r.2, j < r.1.length := by
  unfold append_chunked_stage at hr
  by_cases hp : plan.isEmpty
  · rw [if_pos hp] at hr
    subst hr
    exact ⟨seqExtends_refl P s, hwf, hmo, by intro j hj; simp at hj⟩
  · rw [if_neg hp] at hr
    exact append_chunked_go_spec P sb (normalize_deps base_dep) pcd enf hP hdeps hnd
      plan s Option.none 0 r hr hwf hmo hbase hpcd (by intro p hq; cases hq)

theorem layer_body_spec (P : Stage → Prop) (ctx : Ctx) (H : PhaseHyps ctx P)
    (hR : 1 ≤ ctx.rram_chiplets)
    (eidx : Nat) (s : List Stage) (prev lidx : Nat) (r : List Stage × Nat)
    (hr : layer_body ctx eidx s prev lidx = r)
    (hwf : WellOrdered s) (hmo : MoePaired s)
    (he : eidx < s.length) (hp : prev < s.length) :
    SeqExtends P s r.1 ∧ WellOrdered r.1 ∧ MoePaired r.1 ∧ r.2 < r.1.length := by
  simp only [layer_body] at hr
  set rb := ((lidx : Int) * 4).emod ctx.rram_chiplets with hrb
  set aq := add_projection_go "q" lidx ctx.digital_chiplets ctx.hidden_size
    ctx.projection_weight_bytes ctx.chunk_byte_plan ctx.num_chunks
    ((rb + 0).emod ctx.rram_chiplets) s (if lidx = 0 then eidx else prev) 0
    ctx.chunk_plan with haq
  obtain ⟨heq, hwq, hmq, hbq⟩ := add_projection_go_spec P "q" lidx ctx.digital_chiplets
    ctx.hidden_size ctx.projection_weight_bytes ctx.chunk_byte_plan ctx.num_chunks
    ((rb + 0).emod ctx.rram_chiplets)
    (fun c ds => H.pdown "q" lidx c _ ds (emod_range _ _ hR).1 (emod_range _ _ hR).2)
    (fun c tok ds => H.plin "q" lidx c tok _ ds (emod_range _ _ hR).1 (emod_range _ _ hR).2)
    (fun c ds => H.pup "q" lidx c _ ds (emod_range _ _ hR).1 (emod_range _ _ hR).2)
    ctx.chunk_plan s (if lidx = 0 then eidx else prev) 0 aq haq.symm hwf hmo
    (by split <;> assumption)
  have hlq : s.length ≤ aq.1.length := seqExtends_le heq
  set ak := add_projection_go "k" lidx ctx.digital_chiplets ctx.hidden_size
    ctx.projection_weight_bytes ctx.chunk_byte_plan ctx.num_chunks
    ((rb + 1).emod ctx.rram_chiplets) aq.1 aq.2 0 ctx.chunk_plan with hak
  obtain ⟨hek, hwk, hmk, hbk⟩ := add_projection_go_spec P "k" lidx ctx.digital_chiplets
    ctx.hidden_size ctx.projection_weight_bytes ctx.chunk_byte_plan ctx.num_chunks
    ((rb + 1).emod ctx.rram_chiplets)
    (fun c ds => H.pdown "k" lidx c _ ds (emod_range _ _ hR).1 (emod_range _ _ hR).2)
    (fun c tok ds => H.plin "k" lidx c tok _ ds (emod_range _ _ hR).1 (emod_range _ _ hR).2)
    (fun c ds => H.pup "k" lidx c _ ds (emod_range _ _ hR).1 (emod_range _ _ hR).2)
    ctx.chunk_plan aq.1 aq.2 0 ak hak.symm hwq hmq hbq
  have hlk : aq.1.length ≤ ak.1.length := seqExtends_le hek
  set av := add_projection_go "v" lidx ctx.digital_chiplets ctx.hidden_size
    ctx.projection_weight_bytes ctx.chunk_byte_plan ctx.num_chunks
    ((rb + 2).emod ctx.rram_chiplets) ak.1 ak.2 0 ctx.chunk_plan with hav
  obtain ⟨hev, hwv, hmv, hbv⟩ := add_projection_go_spec P "v" lidx ctx.digital_chiplets
    ctx.hidden_size ctx.projection_weight_bytes ctx.chunk_byte_plan ctx.num_chunks
    ((rb + 2).emod ctx.rram_chiplets)
    (fun c ds => H.pdown "v" lidx c _ ds (emod_range _ _ hR).1 (emod_range _ _ hR).2)
    (fun c tok ds => H.plin "v" lidx c tok _ ds (emod_range _ _ hR).1 (emod_range _ _ hR).2)
    (fun c ds => H.pup "v" lidx c _ ds (emod_range _ _ hR).1 (emod_range _ _ hR).2)
    ctx.chunk_plan ak.1 ak.2 0 av hav.symm hwk hmk hbk
  have hlv : ak.1.length ≤ av.1.length := seqExtends_le hev
  set ascore := append_chunked_stage av.1
    (attn_score_stage lidx ctx.hidden_size ctx.dtype_bytes ctx.digital_latency_base
      ctx.digital_chiplets ctx.num_chunks)
    ctx.chunk_plan (PyDep.plist [aq.2, ak.2]) Option.none false with hascore
  obtain ⟨hesc, hwsc, hmsc, hbsc⟩ := append_chunked_stage_spec P
    (attn_score_stage lidx ctx.hidden_size ctx.dtype_bytes ctx.digital_latency_base
      ctx.digital_chiplets ctx.num_chunks)
    ctx.chunk_plan (PyDep.plist [aq.2, ak.2]) Option.none false
    (fun c tok ds => H.score lidx c tok ds) (fun c tok => rfl) (fun c tok ds => rfl)
    av.1 ascore hascore.symm hwv hmv
    (by intro b hb
        simp only [normalize_deps] at hb
        rcases List.mem_cons.mp hb with hb | hb
        · subst hb; omega
        · rw [List.mem_singleton] at hb; subst hb; omega)
    (by intro l hl; cases hl)
  have hlsc : av.1.length ≤ ascore.1.length := seqExtends_le hesc
  set apost := append_chunked_stage ascore.1
    (softmax_stage lidx ctx.hidden_size ctx.digital_latency_base ctx.digital_chiplets
      ctx.num_chunks)
    ctx.chunk_plan PyDep.pnone (some (ascore.2.map PyDep.pint)) false with hapost
  obtain ⟨hepo, hwpo, hmpo, hbpo⟩ := append_chunked_stage_spec P
    (softmax_stage lidx ctx.hidden_size ctx.digital_latency_base ctx.digital_chiplets
      ctx.num_chunks)
    ctx.chunk_plan PyDep.pnone (some (ascore.2.map PyDep.pint)) false
    (fun c tok ds => H.softx lidx c tok ds) (fun c tok => rfl) (fun c tok ds => rfl)
    ascore.1 apost hapost.symm hwsc hmsc
    (by intro b hb; simp [normalize_deps] at hb)
    (by intro l hl dp hdp x hx
        injection hl with hl
        subst hl
        rcases List.mem_map.mp hdp with ⟨j, hj, hje⟩
        subst hje
        simp only [normalize_deps, List.mem_singleton] at hx
        rw [hx]
        exact hbsc j hj)
  have hlpo : ascore.1.length ≤ apost.1.length := seqExtends_le hepo
  set md := (List.range ctx.chunk_plan.length).map (fun idx =>
    PyDep.plist ((match apost.2[idx]? with
      | some p => [p]
      | none => []) ++ [av.2])) with hmd
  set amix := append_chunked_stage apost.1
    (attn_mix_stage lidx ctx.hidden_size ctx.dtype_bytes ctx.digital_latency_base
      ctx.digital_chiplets ctx.num_chunks)
    ctx.chunk_plan PyDep.pnone (some md) false with hamix
  obtain ⟨hemx, hwmx, hmmx, hbmx⟩ := append_chunked_stage_spec P
    (attn_mix_stage lidx ctx.hidden_size ctx.dtype_bytes ctx.digital_latency_base
      ctx.digital_chiplets ctx.num_chunks)
    ctx.chunk_plan PyDep.pnone (some md) false
    (fun c tok ds => H.mix lidx c tok ds) (fun c tok => rfl) (fun c tok ds => rfl)
    apost.1 amix hamix.symm hwpo hmpo
    (by intro b hb; simp [normalize_deps] at hb)
    (by intro l hl dp hdp x hx
        injection hl with hl
        subst hl
        rw [hmd] at hdp
        rcases List.mem_map.mp hdp with ⟨idx, hidx, hje⟩
        subst hje
        simp only [normalize_deps] at hx
        rcases List.mem_append.mp hx with hx | hx
        · cases hg : apost.2[idx]? with
          | none => rw [hg] at hx; simp at hx
          | some pj =>
            rw [hg] at hx
            rw [List.mem_singleton] at hx
            rw [hx]
            exact hbpo pj (List.getElem?_mem hg)
        · rw [List.mem_singleton] at hx
          subst hx
          omega)
  have hlmx : apost.1.length ≤ amix.1.length := seqExtends_le hemx
  set tl := (match amix.2.getLast? with
    | some t => t
    | none =>
      match apost.2.getLast? with
      | some t => t
      | none => ascore.2.getLastD 0) with htl
  have htlb : tl < amix.1.length := by
    rw [htl]
    cases hc1 : amix.2.getLast? with
    | some t => exact hbmx t (mem_of_getLast?_eq hc1)
    | none =>
      cases hc2 : apost.2.getLast? with
      | some t => exact lt_of_lt_of_le (hbpo t (mem_of_getLast?_eq hc2)) hlmx
      | none =>
        rw [List.getLastD_eq_getLast?]
        cases hc3 : ascore.2.getLast? with
        | some t =>
          exact lt_of_lt_of_le (hbsc t (mem_of_getLast?_eq hc3)) (le_trans hlpo hlmx)
        | none =>
          exact show (0 : Nat) < amix.1.length by omega
  set ao := add_projection_go "o" lidx ctx.digital_chiplets ctx.hidden_size
    ctx.projection_weight_bytes ctx.chunk_byte_plan ctx.num_chunks
    ((rb + 3).emod ctx.rram_chiplets) amix.1 tl 0 ctx.chunk_plan with hao
  obtain ⟨heo, hwo, hmo2, hbo⟩ := add_projection_go_spec P "o" lidx ctx.digital_chiplets
    ctx.hidden_size ctx.projection_weight_bytes ctx.chunk_byte_plan ctx.num_chunks
    ((rb + 3).emod ctx.rram_chiplets)
    (fun c ds => H.pdown "o" lidx c _ ds (emod_range _ _ hR).1 (emod_range _ _ hR).2)
    (fun c tok ds => H.plin "o" lidx c tok _ ds (emod_range _ _ hR).1 (emod_range _ _ hR).2)
    (fun c ds => H.pup "o" lidx c _ ds (emod_range _ _ hR).1 (emod_range _ _ hR).2)
    ctx.chunk_plan amix.1 tl 0 ao hao.symm hwmx hmmx htlb
  have hlo : amix.1.length ≤ ao.1.length := seqExtends_le heo
  set apa := append_chunked_stage ao.1
    (post_attention_stage lidx ctx.hidden_size ctx.digital_latency_base
      ctx.digital_chiplets ctx.num_chunks)
    ctx.chunk_plan (PyDep.pint ao.2) Option.none false with hapa
  obtain ⟨hepa, hwpa, hmpa, hbpa⟩ := append_chunked_stage_spec P
    (post_attention_stage lidx ctx.hidden_size ctx.digital_latency_base
      ctx.digital_chiplets ctx.num_chunks)
    ctx.chunk_plan (PyDep.pint ao.2) Option.none false
    (fun c tok ds => H.postattn lidx c tok ds) (fun c tok => rfl) (fun c tok ds => rfl)
    ao.1 apa hapa.symm hwo hmo2
    (by intro b hb
        simp only [normalize_deps, List.mem_singleton] at hb
        subst hb
        exact hbo)
    (by intro l hl; cases hl)
  have hlpa : ao.1.length ≤ apa.1.length := seqExtends_le hepa
  set agate := append_chunked_stage apa.1
    (gating_stage lidx ctx.experts_per_tok ctx.num_experts ctx.digital_latency_base
      ctx.digital_chiplets)
    ctx.chunk_plan PyDep.pnone (some (apa.2.map PyDep.pint)) true with hagate
  obtain ⟨hega, hwga, hmga, hbga⟩ := append_chunked_stage_spec P
    (gating_stage lidx ctx.experts_per_tok ctx.num_experts ctx.digital_latency_base
      ctx.digital_chiplets)
    ctx.chunk_plan PyDep.pnone (some (apa.2.map PyDep.pint)) true
    (fun c tok ds => H.gate lidx c tok ds) (fun c tok => rfl) (fun c tok ds => rfl)
    apa.1 agate hagate.symm hwpa hmpa
    (by intro b hb; simp [normalize_deps] at hb)
    (by intro l hl dp hdp x hx
        injection hl with hl
        subst hl
        rcases List.mem_map.mp hdp with ⟨j, hj, hje⟩
        subst hje
        simp only [normalize_deps, List.mem_singleton] at hx
        rw [hx]
        exact hbpa j hj)
  have hlga : apa.1.length ≤ agate.1.length := seqExtends_le hega
  set amoe := moe_go ctx lidx (experts_template_def ctx lidx) agate.2 agate.1
    Option.none 0 ctx.chunk_plan with hamoe
  obtain ⟨hemo, hwmo, hmmo, hbmo, humo⟩ := moe_go_spec P ctx lidx
    (experts_template_def ctx lidx) agate.2
    (fun c ds => H.mdown lidx c ds) (fun c ds => H.mlin lidx c ds)
    (fun c ds => H.mup lidx c ds)
    ctx.chunk_plan agate.1 Option.none 0 amoe hamoe.symm hwga hmga hbga
    (by intro u hu; cases hu)
    (by intro hc; exact absurd hc (by omega))
  have hlmo : agate.1.length ≤ amoe.1.length := seqExtends_le hemo
  set amerge := append_chunked_stage amoe.1
    (merge_stage lidx ctx.hidden_size ctx.digital_latency_base)
    ctx.chunk_plan PyDep.pnone (some (amoe.2.2.map PyDep.pint)) true with hamerge
  obtain ⟨heme, hwme, hmme, hbme⟩ := append_chunked_stage_spec P
    (merge_stage lidx ctx.hidden_size ctx.digital_latency_base)
    ctx.chunk_plan PyDep.pnone (some (amoe.2.2.map PyDep.pint)) true
    (fun c tok ds => H.merge lidx c tok ds) (fun c tok => rfl) (fun c tok ds => rfl)
    amoe.1 amerge hamerge.symm hwmo hmmo
    (by intro b hb; simp [normalize_deps] at hb)
    (by intro l hl dp hdp x hx
        injection hl with hl
        subst hl
        rcases List.mem_map.mp hdp with ⟨j, hj, hje⟩
        subst hje
        simp only [normalize_deps, List.mem_singleton] at hx
        rw [hx]
        exact hbmo j hj)
  have hlme : amoe.1.length ≤ amerge.1.length := seqExtends_le heme
  set apost2 := append_chunked_stage amerge.1
    (postprocess_stage lidx ctx.hidden_size ctx.digital_latency_base
      ctx.digital_chiplets)
    ctx.chunk_plan PyDep.pnone (some (amerge.2.map PyDep.pint)) true with hapost2
  obtain ⟨hep2, hwp2, hmp2, hbp2⟩ := append_chunked_stage_spec P
    (postprocess_stage lidx ctx.hidden_size ctx.digital_latency_base
      ctx.digital_chiplets)
    ctx.chunk_plan PyDep.pnone (some (amerge.2.map PyDep.pint)) true
    (fun c tok ds => H.postp lidx c tok ds) (fun c tok => rfl) (fun c tok ds => rfl)
    amerge.1 apost2 hapost2.symm hwme hmme
    (by intro b hb; simp [normalize_deps] at hb)
    (by intro l hl dp hdp x hx
        injection hl with hl
        subst hl
        rcases List.mem_map.mp hdp with ⟨j, hj, hje⟩
        subst hje
        simp only [normalize_deps, List.mem_singleton] at hx
        rw [hx]
        exact hbme j hj)
  have hlp2 : amerge.1.length ≤ apost2.1.length := seqExtends_le hep2
  set np := (match apost2.2.getLast? with
    | some t => t
    | none =>
      match amerge.2.getLast? with
      | some t => t
      | none =>
        match amoe.2.2.getLast? with
        | some t => t
        | none =>
          match amoe.2.1 with
          | some p => p
          | none => ao.2) with hnp
  have hnpb : np < apost2.1.length := by
    rw [hnp]
    cases hc1 : apost2.2.getLast? with
    | some t => exact hbp2 t (mem_of_getLast?_eq hc1)
    | none =>
      cases hc2 : amerge.2.getLast? with
      | some t => exact lt_of_lt_of_le (hbme t (mem_of_getLast?_eq hc2)) hlp2
      | none =>
        cases hc3 : amoe.2.2.getLast? with
        | some t =>
          exact lt_of_lt_of_le (hbmo t (mem_of_getLast?_eq hc3)) (le_trans hlme hlp2)
        | none =>
          cases hc4 : amoe.2.1 with
          | some u =>
            exact lt_of_lt_of_le (humo u hc4) (le_trans hlme hlp2)
          | none =>
            exact lt_of_lt_of_le hbo (show ao.1.length ≤ apost2.1.length by omega)
  subst hr
  refine ⟨?_, hwp2, hmp2, ?_⟩
  · exact seqExtends_trans heq (seqExtends_trans hek (seqExtends_trans hev
      (seqExtends_trans hesc (seqExtends_trans hepo (seqExtends_trans hemx
      (seqExtends_trans heo (seqExtends_trans hepa (seqExtends_trans hega
      (seqExtends_trans hemo (seqExtends_trans heme hep2))))))))))
  · dsimp only
    exact hnpb

theorem layer_loop_spec (P : Stage → Prop) (ctx : Ctx) (H : PhaseHyps ctx P)
    (hR : 1 ≤ ctx.rram_chiplets) (eidx : Nat) :
    ∀ (fuel : Nat) (s : List Stage) (prev lidx : Nat) (r : List Stage),
      layer_loop ctx eidx s prev lidx fuel = r →
      WellOrdered s → MoePaired s → eidx < s.length → prev < s.length →
      SeqExtends P s r ∧ WellOrdered r ∧ MoePaired r := by
  intro fuel
  induction fuel with
  | zero =>
    intro s prev lidx r hr hwf hmo he hp
    simp only [layer_loop] at hr
    subst hr
    exact ⟨seqExtends_refl P s, hwf, hmo⟩
  | succ n ih =>
    intro s prev lidx r hr hwf hmo he hp
    simp only [layer_loop] at hr
    set lb := layer_body ctx eidx s prev lidx with hlb
    obtain ⟨helb, hwlb, hmlb, hblb⟩ := layer_body_spec P ctx H hR eidx s prev lidx lb
      hlb.symm hwf hmo he hp
    obtain ⟨her, hwr, hmr⟩ := ih lb.1 lb.2 (lidx + 1) r hr hwlb hmlb
      (by have := seqExtends_le helb; omega) hblb
    exact ⟨seqExtends_trans helb her, hwr, hmr⟩

theorem mk_ctx_digital (args : BuildArgs) :
    (mk_ctx args).digital_chiplets = max args.digital_chiplets 1 := rfl

theorem mk_ctx_rram (args : BuildArgs) :
    (mk_ctx args).rram_chiplets = max args.rram_chiplets 1 := rfl

theorem mk_ctx_dtype (args : BuildArgs) :
    (mk_ctx args).dtype_bytes = max args.dtype_bytes 1 := rfl

theorem mk_ctx_hidden (args : BuildArgs) :
    (mk_ctx args).hidden_size = args.hidden_size := rfl

theorem mk_ctx_intermediate (args : BuildArgs) :
    (mk_ctx args).intermediate_size = args.intermediate_size := rfl

theorem mk_ctx_num_experts (args : BuildArgs) :
    (mk_ctx args).num_experts = args.num_experts := rfl

theorem mk_ctx_pwb (args : BuildArgs) :
    (mk_ctx args).projection_weight_bytes =
      args.hidden_size * args.hidden_size * max args.dtype_bytes 1 := rfl

theorem mk_ctx_ewb (args : BuildArgs) :
    (mk_ctx args).expert_weight_bytes =
      args.hidden_size * args.intermediate_size * max args.dtype_bytes 1 := rfl

theorem mk_ctx_expert_chips (args : BuildArgs) :
    (mk_ctx args).expert_chips = (List.range args.num_experts.toNat).map
      (fun (chip_idx : Nat) => (chip_idx : Int).emod (max args.rram_chiplets 1)) := rfl

/-- The master lemma: any per-stage property that holds of every stage shape
the builder appends holds of every stage of the built sequence, and the built
sequence is well-ordered and MoE-chunk-paired. -/
theorem build_moe_sequence_spec (P : Stage → Prop) (args : BuildArgs)
    (H : PhaseHyps (mk_ctx args) P) :
    (∀ x ∈ build_moe_sequence args, P x) ∧ WellOrdered (build_moe_sequence args) ∧
      MoePaired (build_moe_sequence args) := by
  have hR : 1 ≤ (mk_ctx args).rram_chiplets := by
    rw [mk_ctx_rram]
    omega
  unfold build_moe_sequence
  set e := append_stage [] (embed_stage (mk_ctx args).tokens (mk_ctx args).hidden_size
    (mk_ctx args).digital_latency_base) (some []) with heq0
  set ll := layer_loop (mk_ctx args) e.2 e.1 e.2 0 args.layers.toNat with hll
  obtain ⟨hee, hwe, hme, hle, hie⟩ := append_stage_step P []
    (embed_stage (mk_ctx args).tokens (mk_ctx args).hidden_size
      (mk_ctx args).digital_latency_base) (some []) e heq0.symm
    wellOrdered_nil moePaired_nil rfl
    (by intro ds hds
        injection hds with h
        subst h
        intro x hx
        simp at hx)
    H.embed (fun ds => rfl)
  obtain ⟨hell, hwll, hmll⟩ := layer_loop_spec P (mk_ctx args) H hR e.2
    args.layers.toNat e.1 e.2 0 ll hll.symm hwe hme (by omega) (by omega)
  refine ⟨?_, hwll, hmll⟩
  obtain ⟨t, htt, htp⟩ := seqExtends_trans hee hell
  rw [List.nil_append] at htt
  intro x hx
  rw [htt] at hx
  exact htp x hx

/-! ## Claim theorems -/

/-- C1: for every graph the builder produces (any model shape, any chiplet
counts, any chunk budget — with the resolver-guaranteed positive expert
count), every index in every stage's `deps` list is strictly less than the
stage's own position, so the append order is already a valid topological
order.  (Dependency indices are list positions, hence non-negative by
construction.) -/
theorem topo_order_of_build (args : BuildArgs) (h : 1 ≤ args.num_experts) :
    topo_ok (build_moe_sequence args) = true := by
  obtain ⟨-, hwf, -⟩ := build_moe_sequence_spec (fun _ => True) args
    (by constructor <;> (intros; trivial))
  exact topo_ok_of_wellOrdered hwf

theorem topo_order_witness :
    1 ≤ wargs.num_experts ∧ topo_ok (build_moe_sequence wargs) = true :=
  ⟨by decide, topo_order_of_build wargs (by decide)⟩

/-- C3: in every build, every MoE dispatch transfer (`moe_transfer_to_rram`)
of chunk `c ≥ 1` lists the index of the immediately preceding stage among its
deps, and that stage is the MoE return transfer (`moe_transfer_to_digital`)
of chunk `c - 1` of the same layer — consecutive MoE chunk triples are
sequentially dependent, so a shared round-robin RRAM target is never occupied
by chunk `c` before chunk `c - 1`'s result has transferred out. -/
theorem moe_chunk_serialization (args : BuildArgs) (h : 1 ≤ args.num_experts) :
    moe_pair_ok (build_moe_sequence args) = true := by
  obtain ⟨-, -, hmo⟩ := build_moe_sequence_spec (fun _ => True) args
    (by constructor <;> (intros; trivial))
  exact moe_pair_ok_of_moePaired hmo

theorem moe_chunk_serialization_witness :
    1 ≤ wargs.num_experts ∧ moe_pair_ok (build_moe_sequence wargs) = true :=
  ⟨by decide, moe_chunk_serialization wargs (by decide)⟩

/-- C9: the build is deterministic — two invocations of the generator on
equal configurations and equal arguments produce identical output documents
(same name, same stage sequence, same metadata), so building twice yields
byte-identical serialisations.  The generator is a pure function of its two
inputs: it reads no other state. -/
theorem build_deterministic (c1 c2 : Config) (a1 a2 : Args) (hc : c1 = c2)
    (ha : a1 = a2) :
    generate_chiplet_model c1 a1 = generate_chiplet_model c2 a2 := by
  subst hc
  subst ha
  rfl

theorem build_deterministic_witness :
    generate_chiplet_model [] small_args = generate_chiplet_model [] small_args :=
  build_deterministic [] [] small_args small_args rfl rfl

theorem chunk_plan_go_spec (tpc : Nat) :
    ∀ (fuel r : Nat), r ≤ fuel →
      (chunk_plan_go tpc fuel r).sum = (r : Int) ∧
      (∀ x ∈ chunk_plan_go tpc fuel r, 1 ≤ x) ∧
      (1 ≤ r → chunk_plan_go tpc fuel r ≠ []) := by
  intro fuel
  induction fuel with
  | zero =>
    intro r hr
    have h0 : r = 0 := by omega
    subst h0
    simp [chunk_plan_go]
  | succ n ih =>
    intro r hr
    cases r with
    | zero => simp [chunk_plan_go]
    | succ m =>
      simp only [chunk_plan_go]
      have ht1 : 1 ≤ min (max tpc 1) (m + 1) := by omega
      have ht2 : min (max tpc 1) (m + 1) ≤ m + 1 := by omega
      obtain ⟨hs, hp, -⟩ := ih (m + 1 - min (max tpc 1) (m + 1)) (by omega)
      refine ⟨?_, ?_, ?_⟩
      · rw [List.sum_cons, hs]
        push_cast
        omega
      · intro x hx
        rcases List.mem_cons.mp hx with hx | hx
        · rw [hx]
          exact_mod_cast ht1
        · exact hp x hx
      · intro h1
        simp

/-- C2: for positive `tokens`, `hidden_size`, `dtype_bytes` and `chunk_bytes`
the chunk plan is non-empty, every entry is at least 1 and the entries sum to
exactly `tokens`; for `tokens ≤ 0` the plan is empty; and the planner is a
deterministic function of its four arguments. -/
theorem chunk_plan_spec (tokens hidden_size dtype_bytes chunk_bytes : Int) :
    (0 < tokens → 0 < hidden_size → 0 < dtype_bytes → 0 < chunk_bytes →
      build_chunk_plan tokens hidden_size dtype_bytes chunk_bytes ≠ [] ∧
      (∀ x ∈ build_chunk_plan tokens hidden_size dtype_bytes chunk_bytes, 1 ≤ x) ∧
      (build_chunk_plan tokens hidden_size dtype_bytes chunk_bytes).sum = tokens) ∧
    (tokens ≤ 0 → build_chunk_plan tokens hidden_size dtype_bytes chunk_bytes = []) ∧
    (∀ t2 h2 d2 c2 : Int, tokens = t2 → hidden_size = h2 → dtype_bytes = d2 →
      chunk_bytes = c2 →
      build_chunk_plan tokens hidden_size dtype_bytes chunk_bytes =
        build_chunk_plan t2 h2 d2 c2) := by
  refine ⟨?_, ?_, ?_⟩
  · intro ht hh hd hc
    have hpos : ¬ max (hidden_size * dtype_bytes) dtype_bytes ≤ 0 := by
      have : 0 < hidden_size * dtype_bytes := mul_pos hh hd
      omega
    obtain ⟨hs, hp, hne⟩ := chunk_plan_go_spec
      (max (chunk_bytes.ediv (max (hidden_size * dtype_bytes) dtype_bytes)) 1).toNat
      tokens.toNat tokens.toNat (le_refl _)
    have htn : 1 ≤ tokens.toNat := by omega
    have hplan := hne htn
    have heq : build_chunk_plan tokens hidden_size dtype_bytes chunk_bytes =
        chunk_plan_go
          (max (chunk_bytes.ediv (max (hidden_size * dtype_bytes) dtype_bytes)) 1).toNat
          tokens.toNat tokens.toNat := by
      unfold build_chunk_plan
      rw [if_neg (show ¬ tokens ≤ 0 by omega)]
      simp only [if_neg hpos]
      rw [if_neg (by simpa [List.isEmpty_iff] using hplan)]
    rw [heq]
    refine ⟨hplan, hp, ?_⟩
    rw [hs]
    omega
  · intro ht
    unfold build_chunk_plan
    rw [if_pos ht]
  · intro t2 h2 d2 c2 h1 h2e h3 h4
    rw [h1, h2e, h3, h4]

theorem chunk_plan_witness :
    build_chunk_plan 5 2 1 4 ≠ [] ∧
    (∀ x ∈ build_chunk_plan 5 2 1 4, 1 ≤ x) ∧
    (build_chunk_plan 5 2 1 4).sum = 5 :=
  (chunk_plan_spec 5 2 1 4).1 (by decide) (by decide) (by decide) (by decide)

/-- C7: every `transfer` stage in any emitted sequence has
`latency = max(ceil(bytes / 4096), 4)` computed from its own byte count. -/
theorem transfer_latency_formula (args : BuildArgs) (h : 1 ≤ args.num_experts) :
    (build_moe_sequence args).all transfer_latency_ok = true := by
  obtain ⟨hall, -, -⟩ := build_moe_sequence_spec
    (fun st => transfer_latency_ok st = true) args
    (by constructor <;>
      first
      | (intros; rfl)
      | (intros
         simp [transfer_latency_ok, with_deps, proj_transfer_down, proj_transfer_up,
           moe_transfer_down, moe_transfer_up]))
  exact List.all_eq_true.mpr hall

theorem transfer_latency_witness :
    1 ≤ wargs.num_experts ∧ (build_moe_sequence wargs).all transfer_latency_ok = true :=
  ⟨by decide, transfer_latency_formula wargs (by decide)⟩

theorem chunk_digital_owner_range (D l c : Int) (hD : 1 ≤ D) :
    0 ≤ chunk_digital_owner D l c ∧ chunk_digital_owner D l c < D := by
  unfold chunk_digital_owner
  rw [if_neg (by omega)]
  exact emod_range _ _ hD

theorem mk_ctx_expert_chips_range (args : BuildArgs) :
    ∀ ch ∈ (mk_ctx args).expert_chips, 0 ≤ ch ∧ ch < (mk_ctx args).rram_chiplets := by
  rw [mk_ctx_expert_chips, mk_ctx_rram]
  intro ch hch
  rcases List.mem_map.mp hch with ⟨i, hi, hie⟩
  rw [← hie]
  exact emod_range _ _ (by omega)

theorem moe_target_rram_range (chips : List Int) (R : Int) (hR : 1 ≤ R)
    (hc : ∀ ch ∈ chips, 0 ≤ ch ∧ ch < R) (c : Nat) (ept : Int) :
    0 ≤ moe_target_rram chips c ept ∧ moe_target_rram chips c ept < R := by
  unfold moe_target_rram
  cases hg : chips[(((c : Int) * ept).emod (chips.length : Int)).toNat]? with
  | some ch =>
    have hm := hc ch (List.getElem?_mem hg)
    simp [List.getD, hg]
    exact hm
  | none =>
    simp [List.getD, hg]
    omega

theorem experts_template_chiplet_range (ctx : Ctx) (hR : 1 ≤ ctx.rram_chiplets)
    (hchips : ∀ ch ∈ ctx.expert_chips, 0 ≤ ch ∧ ch < ctx.rram_chiplets) (lidx : Nat) :
    ∀ t ∈ experts_template_def ctx lidx, 0 ≤ t.chiplet ∧ t.chiplet < ctx.rram_chiplets := by
  intro t ht
  unfold experts_template_def at ht
  rcases List.mem_map.mp ht with ⟨j, hj, hje⟩
  rw [← hje]
  show 0 ≤ ctx.expert_chips.getD j 0 ∧ ctx.expert_chips.getD j 0 < ctx.rram_chiplets
  cases hg : ctx.expert_chips[j]? with
  | some ch =>
    have hm := hchips ch (List.getElem?_mem hg)
    simp [List.getD, hg]
    exact hm
  | none =>
    simp [List.getD, hg]
    omega

/-- C10: with the resolver-guaranteed `1 ≤ num_experts` and arbitrary
(possibly zero or negative) chiplet counts, every `chiplet`/`queue` field of
every emitted stage and the `chiplet` of every expert sub-record is a
non-negative id strictly below the clamped count of its resource class
(`max(digital_chiplets, 1)` for digital resources, `max(rram_chiplets, 1)`
for RRAM resources). -/
theorem chiplet_ids_in_range (args : BuildArgs) (h : 1 ≤ args.num_experts) :
    (build_moe_sequence args).all
      (chiplet_fields_ok (max args.digital_chiplets 1) (max args.rram_chiplets 1)) = true := by
  have hD : (1 : Int) ≤ (mk_ctx args).digital_chiplets := by rw [mk_ctx_digital]; omega
  have hR : (1 : Int) ≤ (mk_ctx args).rram_chiplets := by rw [mk_ctx_rram]; omega
  have hchips := mk_ctx_expert_chips_range args
  have H : PhaseHyps (mk_ctx args)
      (fun st => chiplet_fields_ok (mk_ctx args).digital_chiplets
        (mk_ctx args).rram_chiplets st = true) := ?_
  case _ =>
    obtain ⟨hall, -, -⟩ := build_moe_sequence_spec
      (fun st => chiplet_fields_ok (mk_ctx args).digital_chiplets
        (mk_ctx args).rram_chiplets st = true) args H
    rw [List.all_eq_true]
    intro st hst
    have := hall st hst
    rw [← mk_ctx_digital args, ← mk_ctx_rram args]
    exact this
  constructor
  case embed => intros; rfl
  case merge => intros; rfl
  case pdown =>
    intro lab lidx c rid ds h1 h2
    have hcd := chunk_digital_owner_range (mk_ctx args).digital_chiplets
      (lidx : Int) (c : Int) hD
    simp [chiplet_fields_ok, with_deps, proj_transfer_down, opt_in_range,
      decide_eq_true_eq]
    exact ⟨⟨h1, h2⟩, hcd⟩
  case plin =>
    intro lab lidx c tok rid ds h1 h2
    simp [chiplet_fields_ok, with_deps, proj_rram_linear, opt_in_range,
      decide_eq_true_eq]
    exact ⟨h1, h2⟩
  case pup =>
    intro lab lidx c rid ds h1 h2
    have hcd := chunk_digital_owner_range (mk_ctx args).digital_chiplets
      (lidx : Int) (c : Int) hD
    simp [chiplet_fields_ok, with_deps, proj_transfer_up, opt_in_range,
      decide_eq_true_eq]
    exact ⟨hcd, h1, h2⟩
  case score =>
    intro lidx c tok ds
    have hcd := chunk_digital_owner_range (mk_ctx args).digital_chiplets
      (lidx : Int) (c : Int) hD
    simp [chiplet_fields_ok, with_deps, attn_score_stage, opt_in_range,
      decide_eq_true_eq]
    exact hcd
  case softx =>
    intro lidx c tok ds
    have hcd := chunk_digital_owner_range (mk_ctx args).digital_chiplets
      (lidx : Int) (c : Int) hD
    simp [chiplet_fields_ok, with_deps, softmax_stage, opt_in_range,
      decide_eq_true_eq]
    exact hcd
  case mix =>
    intro lidx c tok ds
    have hcd := chunk_digital_owner_range (mk_ctx args).digital_chiplets
      (lidx : Int) (c : Int) hD
    simp [chiplet_fields_ok, with_deps, attn_mix_stage, opt_in_range,
      decide_eq_true_eq]
    exact hcd
  case postattn =>
    intro lidx c tok ds
    have hcd := chunk_digital_owner_range (mk_ctx args).digital_chiplets
      (lidx : Int) (c : Int) hD
    simp [chiplet_fields_ok, with_deps, post_attention_stage, opt_in_range,
      decide_eq_true_eq]
    exact hcd
  case gate =>
    intro lidx c tok ds
    have hcd := chunk_digital_owner_range (mk_ctx args).digital_chiplets
      (lidx : Int) (c : Int) hD
    simp [chiplet_fields_ok, with_deps, gating_stage, opt_in_range,
      decide_eq_true_eq]
    exact hcd
  case mdown =>
    intro lidx c ds
    have hcd := chunk_digital_owner_range (mk_ctx args).digital_chiplets
      (lidx : Int) (c : Int) hD
    have htr := moe_target_rram_range (mk_ctx args).expert_chips
      (mk_ctx args).rram_chiplets hR hchips c (mk_ctx args).experts_per_tok
    simp [chiplet_fields_ok, with_deps, moe_transfer_down, opt_in_range,
      decide_eq_true_eq]
    exact ⟨htr, hcd⟩
  case mup =>
    intro lidx c ds
    have hcd := chunk_digital_owner_range (mk_ctx args).digital_chiplets
      (lidx : Int) (c : Int) hD
    have htr := moe_target_rram_range (mk_ctx args).expert_chips
      (mk_ctx args).rram_chiplets hR hchips c (mk_ctx args).experts_per_tok
    simp [chiplet_fields_ok, with_deps, moe_transfer_up, opt_in_range,
      decide_eq_true_eq]
    exact ⟨hcd, htr⟩
  case mlin =>
    intro lidx c ds
    have htpl := experts_template_chiplet_range (mk_ctx args) hR hchips lidx
    simp [chiplet_fields_ok, with_deps, moe_linear_stage, opt_in_range,
      decide_eq_true_eq, List.all_eq_true]
    intro t ht
    show 0 ≤ t.chiplet ∧ t.chiplet < (mk_ctx args).rram_chiplets
    exact htpl t ht
  case postp =>
    intro lidx c tok ds
    have hcd := chunk_digital_owner_range (mk_ctx args).digital_chiplets
      (lidx : Int) (c : Int) hD
    simp [chiplet_fields_ok, with_deps, postprocess_stage, opt_in_range,
      decide_eq_true_eq]
    exact hcd

theorem chiplet_ids_witness :
    1 ≤ wargs.num_experts ∧
    (build_moe_sequence wargs).all
      (chiplet_fields_ok (max wargs.digital_chiplets 1) (max wargs.rram_chiplets 1)) = true :=
  ⟨by decide, chiplet_ids_in_range wargs (by decide)⟩

theorem experts_template_weight (ctx : Ctx) (lidx : Nat) :
    ∀ t ∈ experts_template_def ctx lidx, t.weight_bytes = ctx.expert_weight_bytes := by
  intro t ht
  unfold experts_template_def at ht
  rcases List.mem_map.mp ht with ⟨j, hj, hje⟩
  rw [← hje]
  rfl

/-- C4: within every chunked sub-pipeline (each projection's per-chunk
`rram_linear` stages, each layer's per-chunk `moe_linear` stages, and every
expert sub-record repeated across chunks), a non-zero `weight_bytes` is
carried exactly by chunk index 0: every chunk with index ≥ 1 carries zero.
Stated per stage via the recorded chunk index (each sub-pipeline enumerates
its chunk indices 0, 1, ... exactly once in order). -/
theorem weight_residency (args : BuildArgs) (h1 : 1 ≤ args.num_experts)
    (h2 : 0 < args.hidden_size) (h3 : 0 < args.intermediate_size) :
    (build_moe_sequence args).all weight_residency_ok = true := by
  have hw : (mk_ctx args).projection_weight_bytes ≠ 0 := by
    rw [mk_ctx_pwb]
    exact ne_of_gt (mul_pos (mul_pos h2 h2) (by omega))
  have hwe : (mk_ctx args).expert_weight_bytes ≠ 0 := by
    rw [mk_ctx_ewb]
    exact ne_of_gt (mul_pos (mul_pos h2 h3) (by omega))
  have htw := experts_template_weight (mk_ctx args)
  have H : PhaseHyps (mk_ctx args) (fun st => weight_residency_ok st = true) := ?_
  case _ =>
    obtain ⟨hall, -, -⟩ := build_moe_sequence_spec
      (fun st => weight_residency_ok st = true) args H
    exact List.all_eq_true.mpr hall
  constructor
  case embed => intros; rfl
  case pdown => intros; rfl
  case pup => intros; rfl
  case score => intros; rfl
  case softx => intros; rfl
  case mix => intros; rfl
  case postattn => intros; rfl
  case gate => intros; rfl
  case mdown => intros; rfl
  case mup => intros; rfl
  case merge => intros; rfl
  case postp => intros; rfl
  case plin =>
    intro lab lidx c tok rid ds hr1 hr2
    rcases Nat.eq_zero_or_pos c with hc | hc
    · subst hc
      simp [weight_residency_ok, with_deps, proj_rram_linear, aux_chunk, hw]
    · have hcne : c ≠ 0 := by omega
      simp [weight_residency_ok, with_deps, proj_rram_linear, aux_chunk, hcne]
  case mlin =>
    intro lidx c ds
    rcases Nat.eq_zero_or_pos c with hc | hc
    · subst hc
      simp [weight_residency_ok, with_deps, moe_linear_stage, aux_chunk, hwe,
        List.all_eq_true, chunk_expert]
      intro t ht
      rw [htw lidx t ht]
      simp [hwe]
    · have hcne : c ≠ 0 := by omega
      simp [weight_residency_ok, with_deps, moe_linear_stage, aux_chunk, hcne,
        List.all_eq_true, chunk_expert]

theorem weight_residency_witness :
    (1 ≤ wargs.num_experts ∧ 0 < wargs.hidden_size ∧ 0 < wargs.intermediate_size) ∧
    (build_moe_sequence wargs).all weight_residency_ok = true :=
  ⟨by decide, weight_residency wargs (by decide) (by decide) (by decide)⟩

theorem expert_chips_getD (args : BuildArgs) (j : Nat)
    (hj : j < args.num_experts.toNat) :
    (mk_ctx args).expert_chips.getD j 0 = (j : Int).emod (max args.rram_chiplets 1) := by
  rw [mk_ctx_expert_chips]
  have hg : ((List.range args.num_experts.toNat).map
      (fun (chip_idx : Nat) => (chip_idx : Int).emod (max args.rram_chiplets 1)))[j]? =
      some ((j : Int).emod (max args.rram_chiplets 1)) := by
    rw [List.getElem?_map, List.getElem?_range hj]
    rfl
  rw [List.getD_eq_getElem?_getD, hg]
  rfl

/-- C6: every digital-chiplet placement the builder records together with its
provenance metadata equals `digitalOwner(layerIndex, chunkIndex, digitalCount)
= (layerIndex + chunkIndex) mod digitalCount`, and every expert sub-record of
every `moe_linear` stage is placed at `expertOwner(expertIndex, rramCount) =
expertIndex mod rramCount` for its position `expertIndex` in the experts
array; both counts are clamped to a minimum of 1 before the modulo, the
builder's `chunk_digital_owner` equals the spec's `digitalOwner` formula, and
both placement functions are pure (identical arguments give identical
placements). -/
theorem placement_policy (args : BuildArgs) (h : 1 ≤ args.num_experts) :
    ((build_moe_sequence args).all (fun st =>
      meta_placement_ok (max args.digital_chiplets 1) st &&
      expert_position_ok (max args.rram_chiplets 1) st) = true) ∧
    (∀ l c : Int, chunk_digital_owner (max args.digital_chiplets 1) l c =
      digitalOwner l c args.digital_chiplets) ∧
    (∀ e : Int, e.emod (max args.rram_chiplets 1) = expertOwner e args.rram_chiplets) ∧
    (∀ l1 l2 c1 c2 d1 d2 : Int, l1 = l2 → c1 = c2 → d1 = d2 →
      digitalOwner l1 c1 d1 = digitalOwner l2 c2 d2) ∧
    (∀ e1 e2 r1 r2 : Int, e1 = e2 → r1 = r2 → expertOwner e1 r1 = expertOwner e2 r2) := by
  refine ⟨?_, ?_, ?_, ?_, ?_⟩
  · have H : PhaseHyps (mk_ctx args) (fun st =>
        (meta_placement_ok (mk_ctx args).digital_chiplets st &&
          expert_position_ok (mk_ctx args).rram_chiplets st) = true) := ?_
    case _ =>
      obtain ⟨hall, -, -⟩ := build_moe_sequence_spec
        (fun st => (meta_placement_ok (mk_ctx args).digital_chiplets st &&
          expert_position_ok (mk_ctx args).rram_chiplets st) = true) args H
      rw [List.all_eq_true]
      intro st hst
      have := hall st hst
      rw [← mk_ctx_digital args, ← mk_ctx_rram args]
      exact this
    constructor
    case embed => intros; rfl
    case pdown => intros; rfl
    case plin => intros; rfl
    case pup => intros; rfl
    case gate => intros; rfl
    case mdown => intros; rfl
    case mup => intros; rfl
    case merge => intros; rfl
    case postp => intros; rfl
    case score =>
      intro lidx c tok ds
      simp [meta_placement_ok, expert_position_ok, with_deps, attn_score_stage]
    case softx =>
      intro lidx c tok ds
      simp [meta_placement_ok, expert_position_ok, with_deps, softmax_stage]
    case mix =>
      intro lidx c tok ds
      simp [meta_placement_ok, expert_position_ok, with_deps, attn_mix_stage]
    case postattn =>
      intro lidx c tok ds
      simp [meta_placement_ok, expert_position_ok, with_deps, post_attention_stage]
    case mlin =>
      intro lidx c ds
      simp only [with_deps, Bool.and_eq_true]
      refine ⟨rfl, ?_⟩
      simp only [expert_position_ok, moe_linear_stage, List.all_eq_true]
      intro j hj
      rw [List.mem_range] at hj
      have hjlen : j < args.num_experts.toNat := by
        simpa [experts_template_def, mk_ctx_num_experts] using hj
      have hes : ((experts_template_def (mk_ctx args) lidx).map
          (chunk_expert c (chunk_byte_at (mk_ctx args).chunk_byte_plan c)
            (mk_ctx args).experts_per_tok))[j]? =
          some (chunk_expert c (chunk_byte_at (mk_ctx args).chunk_byte_plan c)
            (mk_ctx args).experts_per_tok
            (expert_template lidx j ((mk_ctx args).expert_chips.getD j 0)
              (mk_ctx args).activation_bytes_total (mk_ctx args).experts_per_tok
              (mk_ctx args).expert_weight_bytes (mk_ctx args).intermediate_size)) := by
        simp [experts_template_def, List.getElem?_map, List.getElem?_range hjlen,
          mk_ctx_num_experts]
      simp only [hes]
      show ((mk_ctx args).expert_chips.getD j 0 ==
        (j : Int).emod (mk_ctx args).rram_chiplets) = true
      rw [expert_chips_getD args j hjlen, mk_ctx_rram]
      simp
  · intro l c
    unfold chunk_digital_owner digitalOwner
    rw [if_neg (by omega)]
  · intro e
    rfl
  · intro l1 l2 c1 c2 d1 d2 h1 h2 h3
    rw [h1, h2, h3]
  · intro e1 e2 r1 r2 h1 h2
    rw [h1, h2]

theorem placement_policy_witness :
    1 ≤ wargs.num_experts ∧
    ((build_moe_sequence wargs).all (fun st =>
      meta_placement_ok (max wargs.digital_chiplets 1) st &&
      expert_position_ok (max wargs.rram_chiplets 1) st) = true) :=
  ⟨by decide, (placement_policy wargs (by decide)).1⟩

/-- C5 counterexample: the claim as stated is false on the code.  (a) With a
configuration resolving the expert count to `-1` (`num_local_experts = -1`)
and `use_moe` explicitly true, the resolved count is ≤ 0 and no non-zero
override was given, yet no error is raised and a document is produced (the
count is clamped to 1).  (b) In the claim's own "in particular" scenario —
configuration `num_experts = 0` and no override — Python's falsy `or` chain
skips the zero and resolves the count to the default 16, so again a document
is produced instead of a fatal error. -/
theorem expert_resolution_counterexample :
    small_args.num_experts = none ∧
    resolved_experts [("num_local_experts", JValue.jint (-1)),
      ("use_moe", JValue.jbool true)] small_args.num_experts = -1 ∧
    (generate_chiplet_model [("num_local_experts", JValue.jint (-1)),
      ("use_moe", JValue.jbool true)] small_args).isOk = true ∧
    resolved_experts [("num_experts", JValue.jint 0)] small_args.num_experts = 16 ∧
    (generate_chiplet_model [("num_experts", JValue.jint 0)] small_args).isOk = true ∧
    (generate_chiplet_model [("num_experts", JValue.jint 0)] small_args).map
      (fun d => d.metadata.num_experts) = Except.ok 16 :=
  ⟨rfl, rfl, rfl, rfl, rfl, rfl⟩

/-- C5 (amended): the fatal configuration error is raised exactly under the
condition the code tests — the or-chain-resolved expert count is ≤ 0 (which
requires a negative configuration value, since zero values are skipped as
falsy) AND `use_moe` does not resolve to true (its default being
`count > 0`).  In that case the error is raised before any stage is built and
no document is produced. -/
theorem expert_resolution_amended (config : Config) (args : Args)
    (h1 : resolved_experts config args.num_experts ≤ 0)
    (h2 : bool_from_config config ["use_moe"]
      (decide (0 < resolved_experts config args.num_experts)) = false) :
    generate_chiplet_model config args = .error moe_error_msg := by
  unfold generate_chiplet_model
  rw [if_pos ⟨h2, h1⟩]

theorem expert_resolution_amended_witness :
    resolved_experts [("num_local_experts", JValue.jint (-1))] small_args.num_experts ≤ 0 ∧
    generate_chiplet_model [("num_local_experts", JValue.jint (-1))] small_args =
      .error moe_error_msg :=
  ⟨by decide, expert_resolution_amended [("num_local_experts", JValue.jint (-1))]
    small_args (by decide) (by decide)⟩

/-- C8 counterexample: the claim as stated is false on the code.  An explicit
override value of 0 does not take precedence: Python's `or` treats it as
falsy, so with config `hidden_size = 7` and override 0 the resolved hidden
size is 7, not 0.  Likewise the expert count's configuration value does not
always take precedence over the built-in default: a config value of 0 is
skipped and the default 16 wins. -/
theorem override_precedence_counterexample :
    resolved_hidden [("hidden_size", JValue.jint 7)] (some 0) = 7 ∧ (7 : Int) ≠ 0 ∧
    resolved_experts [("num_experts", JValue.jint 0)] none = 16 ∧ (16 : Int) ≠ 0 :=
  ⟨rfl, by decide, rfl, by decide⟩

/-- C8 (amended): a non-zero explicit override always takes precedence; an
override of 0 is treated as unsupplied (Python falsiness) and falls through
to the configuration document's value — even a zero one for hidden size,
intermediate size, layer count and top-k — and then to the built-in default
(hidden=4096, intermediate=4×hidden, layers=32, topK=2).  The expert count is
resolved by the chain `override or num_local_experts or moe_num_experts /
num_experts or 16`, which skips zero values at every link, so the first
non-zero value wins and a zero config count falls through to the default
16. -/
theorem override_precedence_amended (config : Config) :
    (∀ v : Int, v ≠ 0 → resolved_hidden config (some v) = v) ∧
    (∀ v : Int, v ≠ 0 → ∀ hid : Int, resolved_intermediate config (some v) hid = v) ∧
    (∀ v : Int, v ≠ 0 → resolved_layers config (some v) = v) ∧
    (∀ v : Int, v ≠ 0 → resolved_experts config (some v) = v) ∧
    (∀ v : Int, v ≠ 0 → resolved_topk config (some v) = v) ∧
    (∀ ov : Option Int, ov = none ∨ ov = some 0 →
      resolved_hidden config ov = (int_from_config config hidden_keys).getD 4096 ∧
      (∀ hid : Int, resolved_intermediate config ov hid =
        (int_from_config config intermediate_keys).getD (hid * 4)) ∧
      resolved_layers config ov = (int_from_config config layer_keys).getD 32 ∧
      resolved_topk config ov = (int_from_config config topk_keys).getD 2) ∧
    (∀ ov : Option Int, ov = none ∨ ov = some 0 →
      (∀ w : Int, w ≠ 0 → int_from_config config ["num_local_experts"] = some w →
        resolved_experts config ov = w) ∧
      ((int_from_config config ["num_local_experts"] = none ∨
        int_from_config config ["num_local_experts"] = some 0) →
        (∀ w : Int, w ≠ 0 →
          int_from_config config ["moe_num_experts", "num_experts"] = some w →
          resolved_experts config ov = w) ∧
        ((int_from_config config ["moe_num_experts", "num_experts"] = none ∨
          int_from_config config ["moe_num_experts", "num_experts"] = some 0) →
          resolved_experts config ov = 16))) := by
  refine ⟨?_, ?_, ?_, ?_, ?_, ?_, ?_⟩
  · intro v hv
    simp [resolved_hidden, py_or, hv]
  · intro v hv hid
    simp [resolved_intermediate, py_or, hv]
  · intro v hv
    simp [resolved_layers, py_or, hv]
  · intro v hv
    simp [resolved_experts, py_or_chain, hv]
  · intro v hv
    simp [resolved_topk, py_or, hv]
  · intro ov hov
    rcases hov with rfl | rfl
    · exact ⟨rfl, fun hid => rfl, rfl, rfl⟩
    · exact ⟨by simp [resolved_hidden, py_or], fun hid => by
        simp [resolved_intermediate, py_or], by simp [resolved_layers, py_or],
        by simp [resolved_topk, py_or]⟩
  · intro ov hov
    have hov2 : ov = none ∨ ov = some 0 := hov
    constructor
    · intro w hw hcfg
      rcases hov2 with rfl | rfl
      · simp [resolved_experts, py_or_chain, hcfg, hw]
      · simp [resolved_experts, py_or_chain, hcfg, hw]
    · intro hlocal
      constructor
      · intro w hw hcfg
        rcases hov2 with rfl | rfl <;> rcases hlocal with hl | hl <;>
          simp [resolved_experts, py_or_chain, hl, hcfg, hw]
      · intro hmoe
        rcases hov2 with rfl | rfl <;> rcases hlocal with hl | hl <;>
          rcases hmoe with hm | hm <;>
          simp [resolved_experts, py_or_chain, hl, hm]

theorem override_precedence_amended_witness :
    (5 : Int) ≠ 0 ∧ resolved_hidden [("hidden_size", JValue.jint 7)] (some 5) = 5 :=
  ⟨by decide,
    (override_precedence_amended [("hidden_size", JValue.jint 7)]).1 5 (by decide)⟩

end ChipletModel
